import Mathlib

/-!
# linkchain: the ledger of `core/blockchain.go`

A shallow embedding of the chain manager of `core/blockchain.go` (store
layout, genesis creation, mining, the tip-to-genesis iterator and the
UTXO queries built on it), together with the balance loop of `cli.go`.

Conventions of the embedding:

* a Go `[]byte` is a list of bytes; `nil` and the empty slice are both `[]`;
* a Go `string` is a list of characters;
* a Go `int` is an `Int` kept in the 64-bit two's-complement range by
  `wrapInt` wherever the program adds;
* a Go `map` is an association list read with the zero value as default;
* a `log.Panic`, a failing decode and a loop that has not finished within
  the given number of iterations are the three `Fault`s of `Run`.
-/

namespace Linkchain

/-! ## Go values -/

/-- A Go byte slice. -/
abbrev Bytes := List (Fin 256)

/-- A Go string, as its sequence of characters. -/
abbrev GoString := List Char

/-- Go `int` addition on a 64-bit platform: the result wraps around in two's complement. -/
def wrapInt (x : Int) : Int := (x + 2 ^ 63) % 2 ^ 64 - 2 ^ 63

/-- The sum of a list of Go `int`s, accumulated left to right from `0` with wrapping
addition, as in `for _, v := range vs { s += v }`. -/
def goSum (vs : List Int) : Int := vs.foldl (fun s v => wrapInt (s + v)) 0

/-- One lowercase hexadecimal digit, `hextable[n]` of `encoding/hex`. -/
def hexDigit (n : Nat) : Char :=
  match n with
  | 0 => '0' | 1 => '1' | 2 => '2' | 3 => '3' | 4 => '4' | 5 => '5' | 6 => '6' | 7 => '7'
  | 8 => '8' | 9 => '9' | 10 => 'a' | 11 => 'b' | 12 => 'c' | 13 => 'd' | 14 => 'e' | _ => 'f'

/-- The function `hex.EncodeToString`: two digits per byte, high nibble first. -/
def hexEncode : Bytes → GoString
  | [] => []
  | b :: bs =>
    hexDigit (b.val / 16) :: hexDigit (b.val % 16) :: hexEncode bs

/-- A Go map as an association list; keys are kept unique by `GoMap.put`. -/
abbrev GoMap (κ : Type) (ν : Type) := List (κ × ν)

/-- The read `m[k]`: the stored value, or the zero value `zero` when the key is absent. -/
def GoMap.get {κ ν : Type} [DecidableEq κ] (m : GoMap κ ν) (k : κ) (zero : ν) : ν :=
  match m with
  | [] => zero
  | (k', v) :: rest => if k' = k then v else GoMap.get rest k zero

/-- The write `m[k] = v`. -/
def GoMap.put {κ ν : Type} [DecidableEq κ] (m : GoMap κ ν) (k : κ) (v : ν) : GoMap κ ν :=
  match m with
  | [] => [(k, v)]
  | (k', v') :: rest => if k' = k then (k, v) :: rest else (k', v') :: GoMap.put rest k v

/-- The lookup of a key that may be absent (`nil` result of bolt's `Get`). -/
def GoMap.find {κ ν : Type} [DecidableEq κ] (m : GoMap κ ν) (k : κ) : Option ν :=
  match m with
  | [] => none
  | (k', v) :: rest => if k' = k then some v else GoMap.find rest k

/-! ## Transactions and blocks

`core/transaction.go` and `core/block.go` are not part of the sources at hand;
their declarations are taken from the data model of the specification (§3)
and from the way `blockchain.go` uses them. -/

/-- Modelled from the spec: the declaration of `TXInput` (transaction.go) is missing;
§3 gives the fields, `blockchain.go` reads `Txid` as bytes and `Vout` as an `int`. -/
structure TXInput where
  Txid : Bytes
  Vout : Int
  Signature : Bytes
  PubKey : Bytes
deriving DecidableEq

/-- Modelled from the spec: the declaration of `TXOutput` (transaction.go) is missing;
§3 gives the fields, `cli.go` adds `Value` to an `int`. -/
structure TXOutput where
  Value : Int
  PubKeyHash : Bytes
deriving DecidableEq

/-- Modelled from the spec: the declaration of `Transaction` (transaction.go) is missing;
§3 gives the fields. -/
structure Transaction where
  ID : Bytes
  Vin : List TXInput
  Vout : List TXOutput
deriving DecidableEq

/-- Modelled from the spec: the declaration of `Block` (block.go) is missing; §3 gives the
fields. -/
structure Block where
  Timestamp : Int
  Transactions : List Transaction
  PrevBlockHash : Bytes
  Hash : Bytes
  Nonce : Int
deriving DecidableEq

/-- The zero value `Transaction{}`. -/
def Transaction.zero : Transaction := ⟨[], [], []⟩

/-- Modelled from the spec: `Transaction.IsCoinbase` (transaction.go) is missing. §3: a
coinbase transaction has exactly one input with no real predecessor, that is no `Txid`
and no `Vout` reference (the index `-1`). -/
def Transaction.IsCoinbase (tx : Transaction) : Bool :=
  match tx.Vin with
  | [vin] => vin.Txid.length == 0 && vin.Vout == -1
  | _ => false

/-- Modelled from the spec: `TXOutput.IsLockedWithKey` (transaction.go) is missing. §3: an
output is locked to a public-key hash when that hash is its `PubKeyHash`. -/
def TXOutput.IsLockedWithKey (out : TXOutput) (pubKeyHash : Bytes) : Bool :=
  out.PubKeyHash == pubKeyHash

/-! ## The environment

Everything `blockchain.go` calls but does not define: the block constructor with its
proof of work and clock, the gob codec, the coinbase constructor and the cryptographic
primitives. -/

/-- The functions of the missing files and of the Go libraries, taken as parameters. -/
structure Env where
  /-- The function `NewBlock(transactions, prevBlockHash)` of block.go; the third argument
  is the clock reading it takes. -/
  NewBlock : List Transaction → Bytes → Int → Block
  /-- The method `Block.Serialize` of block.go. -/
  Serialize : Block → Bytes
  /-- The function `DeserializeBlock` of block.go; `none` when decoding panics. -/
  DeserializeBlock : Bytes → Option Block
  /-- The function `NewCoinbaseTX(to, data)` of transaction.go. -/
  NewCoinbaseTX : GoString → GoString → Transaction
  /-- The function `sha256.Sum256`. -/
  sha256 : Bytes → Bytes
  /-- The hash of `golang.org/x/crypto/ripemd160`. -/
  ripemd160 : Bytes → Bytes
  /-- The check `ecdsa.Verify` of a signature over a digest under a public key. -/
  ecdsaVerify : Bytes → Bytes → Bytes → Bool
  /-- The digest signed for input number `i` of a transaction: the hash of its trimmed
  copy in which that input carries the given locking hash (§4.4). -/
  signingDigest : Transaction → Nat → Bytes → Bytes

/-- What the specification promises of the missing functions: `NewBlock` stores its two
arguments and seals the block under a 32-byte digest (§3), the codec is a lossless round
trip (§4.1, §8), and `NewCoinbaseTX` builds a coinbase transaction (§4.4). -/
structure Env.Lawful (E : Env) : Prop where
  newBlock_transactions : ∀ txs prev now, (E.NewBlock txs prev now).Transactions = txs
  newBlock_prev : ∀ txs prev now, (E.NewBlock txs prev now).PrevBlockHash = prev
  newBlock_hash : ∀ txs prev now, (E.NewBlock txs prev now).Hash.length = 32
  decode_encode : ∀ b, E.DeserializeBlock (E.Serialize b) = some b
  coinbase : ∀ addr data, (E.NewCoinbaseTX addr data).IsCoinbase = true

/-- The function `HashPubKey` of wallet.go: RIPEMD-160 of SHA-256. -/
def HashPubKey (E : Env) (pubKey : Bytes) : Bytes :=
  E.ripemd160 (E.sha256 pubKey)

/-- The element `xs[i]` of a Go slice at an `int` index, `none` where Go panics. -/
def indexInt {α : Type} (xs : List α) (i : Int) : Option α :=
  if i < 0 then none else xs[i.toNat]?

/-- Modelled from the spec: `Transaction.Verify` (transaction.go) is missing. §4.4: a
coinbase transaction verifies; otherwise every input must find the output it references
in the previous transactions, carry a public key hashing to that output's `PubKeyHash`,
and carry a signature of its signing digest under that key. A referenced output that
cannot be found fails the verification (§7). -/
def Transaction.Verify (E : Env) (tx : Transaction) (prevTXs : GoMap GoString Transaction) :
    Bool :=
  if tx.IsCoinbase then true
  else
    tx.Vin.enum.all fun (i, vin) =>
      match indexInt (prevTXs.get (hexEncode vin.Txid) Transaction.zero).Vout vin.Vout with
      | none => false
      | some prevOut =>
        HashPubKey E vin.PubKey == prevOut.PubKeyHash &&
          E.ecdsaVerify vin.PubKey (E.signingDigest tx i prevOut.PubKeyHash) vin.Signature

/-! ## The store and the ledger handle -/

/-- A bolt bucket: keyed byte values. -/
abbrev Bucket := GoMap Bytes Bytes

/-- The bolt database `chain.db`: the bucket named `blocks`, `none` until it is created. -/
structure DB where
  blocks : Option Bucket
deriving DecidableEq

/-- The key `[]byte("l")` under which the tip hash is stored. -/
def tipKey : Bytes := [108]

/-- The constant `genesisCoinbaseData`. -/
def genesisCoinbaseData : GoString := "Genesis block made by Saehan".toList

/-- The struct `Blockchain`. -/
structure Blockchain where
  tip : Bytes
  db : DB
deriving DecidableEq

/-- The struct `BlockchainIterator`. -/
structure BlockchainIterator where
  currentHash : Bytes
  db : DB
deriving DecidableEq

/-- The ways a call can fail to return. -/
inductive Fault where
  /-- The loop has not finished within the iterations allowed. -/
  | outOfFuel
  /-- A method was called on the `nil` bucket. -/
  | nilBucket
  /-- The panic of `DeserializeBlock`, also on the `nil` bytes of an absent key. -/
  | decode
  /-- The panic `log.Panic("ERROR: Invalid transaction")`. -/
  | invalidTransaction
deriving DecidableEq

/-- A computation that returns or faults. -/
abbrev Run := Except Fault

/-- The function `NewGenesisBlock`. -/
def NewGenesisBlock (E : Env) (coinbase : Transaction) (now : Int) : Block :=
  E.NewBlock [coinbase] [] now

/-- The function `NewBlockchain`, on the database found in `chain.db`; `now` is the clock
reading of `NewBlock`. -/
def NewBlockchain (E : Env) (address : GoString) (now : Int) (db : DB) : Blockchain :=
  match db.blocks with
  | none =>
    let cbtx := E.NewCoinbaseTX address genesisCoinbaseData
    let genesis := NewGenesisBlock E cbtx now
    let b : Bucket := []
    let b := b.put genesis.Hash (E.Serialize genesis)
    let b := b.put tipKey genesis.Hash
    ⟨genesis.Hash, ⟨some b⟩⟩
  | some b => ⟨(b.find tipKey).getD [], db⟩

/-- The method `Blockchain.Iterator`. -/
def Blockchain.Iterator (bc : Blockchain) : BlockchainIterator :=
  ⟨bc.tip, bc.db⟩

/-- The method `BlockchainIterator.Next`: the block returned and the advanced iterator. -/
def BlockchainIterator.Next (E : Env) (i : BlockchainIterator) :
    Run (Block × BlockchainIterator) :=
  match i.db.blocks with
  | none => .error .nilBucket
  | some b =>
    match b.find i.currentHash with
    | none => .error .decode
    | some encodedBlock =>
      match E.DeserializeBlock encodedBlock with
      | none => .error .decode
      | some block => .ok (block, ⟨block.PrevBlockHash, i.db⟩)

/-- The loop of `printChain` (cli.go), shared by every query of blockchain.go: call `Next`
until a block with empty `PrevBlockHash` has been returned. The blocks returned, newest
first. -/
def BlockchainIterator.blocks (E : Env) : Nat → BlockchainIterator → Run (List Block)
  | 0, _ => .error .outOfFuel
  | fuel + 1, bci =>
    match bci.Next E with
    | .error f => .error f
    | .ok (block, bci) =>
      if block.PrevBlockHash.length = 0 then .ok [block]
      else
        match BlockchainIterator.blocks E fuel bci with
        | .error f => .error f
        | .ok rest => .ok (block :: rest)

/-- The chain of a ledger handle, as a fresh iterator walks it from the tip. -/
def Blockchain.blocks (E : Env) (fuel : Nat) (bc : Blockchain) : Run (List Block) :=
  BlockchainIterator.blocks E fuel bc.Iterator

/-! ## The UTXO queries -/

/-- The map `spentTXOs` of `FindUnspentTransactions`, and `unspentOutputs` of
`FindSpendableOutputs`: hex transaction id to output indices. -/
abbrev IndexMap := GoMap GoString (List Int)

/-- The `Outputs:` loop of `FindUnspentTransactions` over the outputs of `tx` from index
`outIdx` on: an output whose index is listed under the transaction in `spentTXOs` is
skipped (`continue Outputs`); for any other output locked to the key, one copy of the
whole transaction is appended to `unspentTXs`. -/
def scanOutputs (pubKeyHash : Bytes) (spentTXOs : IndexMap) (tx : Transaction) :
    Nat → List TXOutput → List Transaction → List Transaction
  | _, [], unspentTXs => unspentTXs
  | outIdx, out :: outs, unspentTXs =>
    let txID := hexEncode tx.ID
    if spentTXOs.get txID [] ≠ [] ∧
        (spentTXOs.get txID []).any (fun spentOut => spentOut == (outIdx : Int)) then
      scanOutputs pubKeyHash spentTXOs tx (outIdx + 1) outs unspentTXs
    else if out.IsLockedWithKey pubKeyHash then
      scanOutputs pubKeyHash spentTXOs tx (outIdx + 1) outs (unspentTXs ++ [tx])
    else
      scanOutputs pubKeyHash spentTXOs tx (outIdx + 1) outs unspentTXs

/-- The loop over `tx.Vin` of `FindUnspentTransactions`:
`spentTXOs[inTxID] = append(spentTXOs[inTxID], in.Vout)`. -/
def recordInputs : List TXInput → IndexMap → IndexMap
  | [], spentTXOs => spentTXOs
  | vin :: rest, spentTXOs =>
    let inTxID := hexEncode vin.Txid
    recordInputs rest (spentTXOs.put inTxID (spentTXOs.get inTxID [] ++ [vin.Vout]))

/-- The loop over `block.Transactions` of `FindUnspentTransactions`. -/
def scanTransactions (pubKeyHash : Bytes) :
    List Transaction → IndexMap × List Transaction → IndexMap × List Transaction
  | [], st => st
  | tx :: txs, (spentTXOs, unspentTXs) =>
    let unspentTXs := scanOutputs pubKeyHash spentTXOs tx 0 tx.Vout unspentTXs
    let spentTXOs := if tx.IsCoinbase == false then recordInputs tx.Vin spentTXOs else spentTXOs
    scanTransactions pubKeyHash txs (spentTXOs, unspentTXs)

/-- The outer `for` loop of `FindUnspentTransactions`. -/
def FindUnspentTransactions.loop (E : Env) (pubKeyHash : Bytes) :
    Nat → BlockchainIterator → IndexMap × List Transaction → Run (List Transaction)
  | 0, _, _ => .error .outOfFuel
  | fuel + 1, bci, st =>
    match bci.Next E with
    | .error f => .error f
    | .ok (block, bci) =>
      let st := scanTransactions pubKeyHash block.Transactions st
      if block.PrevBlockHash.length = 0 then .ok st.2
      else FindUnspentTransactions.loop E pubKeyHash fuel bci st

/-- The method `Blockchain.FindUnspentTransactions`. -/
def Blockchain.FindUnspentTransactions (E : Env) (fuel : Nat) (bc : Blockchain)
    (pubKeyHash : Bytes) : Run (List Transaction) :=
  FindUnspentTransactions.loop E pubKeyHash fuel bc.Iterator ([], [])

/-- The two loops of `FindUTXO` over the transactions it was handed: every output of every
listed transaction that is locked to the key. -/
def collectUTXOs (pubKeyHash : Bytes) (unspentTransactions : List Transaction) :
    List TXOutput :=
  unspentTransactions.flatMap fun unspentTX =>
    unspentTX.Vout.filter fun out => out.IsLockedWithKey pubKeyHash

/-- The method `Blockchain.FindUTXO`. -/
def Blockchain.FindUTXO (E : Env) (fuel : Nat) (bc : Blockchain) (pubKeyHash : Bytes) :
    Run (List TXOutput) :=
  match bc.FindUnspentTransactions E fuel pubKeyHash with
  | .error f => .error f
  | .ok unspentTransactions => .ok (collectUTXOs pubKeyHash unspentTransactions)

/-- The state of the `Work:` loop of `FindSpendableOutputs`; `done` is set by `break Work`. -/
structure SpendState where
  accumulated : Int
  unspentOutputs : IndexMap
  done : Bool
deriving DecidableEq

/-- The inner loop of `FindSpendableOutputs` over the outputs of one transaction from index
`outIdx` on. -/
def spendOutputs (pubKeyHash : Bytes) (amount : Int) (txID : GoString) :
    Nat → List TXOutput → SpendState → SpendState
  | _, [], st => st
  | outIdx, out :: outs, st =>
    if out.IsLockedWithKey pubKeyHash && st.accumulated < amount then
      let accumulated := wrapInt (st.accumulated + out.Value)
      let unspentOutputs :=
        st.unspentOutputs.put txID (st.unspentOutputs.get txID [] ++ [(outIdx : Int)])
      if accumulated ≥ amount then ⟨accumulated, unspentOutputs, true⟩
      else spendOutputs pubKeyHash amount txID (outIdx + 1) outs ⟨accumulated, unspentOutputs, false⟩
    else spendOutputs pubKeyHash amount txID (outIdx + 1) outs st

/-- The `Work:` loop of `FindSpendableOutputs` over the unspent transactions. -/
def spendTransactions (pubKeyHash : Bytes) (amount : Int) :
    List Transaction → SpendState → SpendState
  | [], st => st
  | tx :: txs, st =>
    let st := spendOutputs pubKeyHash amount (hexEncode tx.ID) 0 tx.Vout st
    if st.done then st else spendTransactions pubKeyHash amount txs st

/-- The method `Blockchain.FindSpendableOutputs`. -/
def Blockchain.FindSpendableOutputs (E : Env) (fuel : Nat) (bc : Blockchain)
    (pubKeyHash : Bytes) (amount : Int) : Run (Int × IndexMap) :=
  match bc.FindUnspentTransactions E fuel pubKeyHash with
  | .error f => .error f
  | .ok unspentTXs =>
    let st := spendTransactions pubKeyHash amount unspentTXs ⟨0, [], false⟩
    .ok (st.accumulated, st.unspentOutputs)

/-- The error `errors.New("Transaction is not found")`. -/
def errNotFound : GoString := "Transaction is not found".toList

/-- The `for` loop of `FindTransaction`: the first transaction of the walk whose `ID`
compares equal to `id` is returned at once, with a `nil` error. -/
def FindTransaction.loop (E : Env) (id : Bytes) :
    Nat → BlockchainIterator → Run (Transaction × Option GoString)
  | 0, _ => .error .outOfFuel
  | fuel + 1, bci =>
    match bci.Next E with
    | .error f => .error f
    | .ok (block, bci) =>
      match block.Transactions.find? (fun tx => tx.ID == id) with
      | some tx => .ok (tx, none)
      | none =>
        if block.PrevBlockHash.length = 0 then .ok (Transaction.zero, some errNotFound)
        else FindTransaction.loop E id fuel bci

/-- The method `Blockchain.FindTransaction`. -/
def Blockchain.FindTransaction (E : Env) (fuel : Nat) (bc : Blockchain) (id : Bytes) :
    Run (Transaction × Option GoString) :=
  FindTransaction.loop E id fuel bc.Iterator

/-- The loop shared by `SignTransaction` and `VerifyTransaction`: each input's `Txid` is
looked up and the result, whatever the error, is stored under the hex of its own `ID`. -/
def Blockchain.collectPrevTXs (E : Env) (fuel : Nat) (bc : Blockchain) :
    List TXInput → GoMap GoString Transaction → Run (GoMap GoString Transaction)
  | [], prevTXs => .ok prevTXs
  | vin :: rest, prevTXs =>
    match bc.FindTransaction E fuel vin.Txid with
    | .error f => .error f
    | .ok (prevTX, _) =>
      Blockchain.collectPrevTXs E fuel bc rest (prevTXs.put (hexEncode prevTX.ID) prevTX)

/-- The method `Blockchain.VerifyTransaction`. -/
def Blockchain.VerifyTransaction (E : Env) (fuel : Nat) (bc : Blockchain) (tx : Transaction) :
    Run Bool :=
  match bc.collectPrevTXs E fuel tx.Vin [] with
  | .error f => .error f
  | .ok prevTXs => .ok (tx.Verify E prevTXs)

/-- The first loop of `MineBlock`: panic at the first transaction that does not verify. -/
def Blockchain.verifyAll (E : Env) (fuel : Nat) (bc : Blockchain) :
    List Transaction → Run Unit
  | [] => .ok ()
  | tx :: txs =>
    match bc.VerifyTransaction E fuel tx with
    | .error f => .error f
    | .ok ok =>
      if ok != true then .error .invalidTransaction
      else Blockchain.verifyAll E fuel bc txs

/-- The method `Blockchain.MineBlock`: the fault it ends with, if any, and the ledger handle
(store and tip) it leaves behind. `now` is the clock reading of `NewBlock`. -/
def Blockchain.MineBlock (E : Env) (fuel : Nat) (bc : Blockchain)
    (transactions : List Transaction) (now : Int) : Option Fault × Blockchain :=
  match bc.verifyAll E fuel transactions with
  | .error f => (some f, bc)
  | .ok () =>
    match bc.db.blocks with
    | none => (some .nilBucket, bc)
    | some b =>
      let lastHash := (b.find tipKey).getD []
      let newBlock := E.NewBlock transactions lastHash now
      let b := b.put newBlock.Hash (E.Serialize newBlock)
      let b := b.put tipKey newBlock.Hash
      (none, ⟨newBlock.Hash, ⟨some b⟩⟩)

/-- The balance loop of `getBalance` (cli.go) on an open ledger: the `Value`s of `FindUTXO`
added up from `0`. -/
def getBalance (E : Env) (fuel : Nat) (bc : Blockchain) (pubKeyHash : Bytes) : Run Int :=
  match bc.FindUTXO E fuel pubKeyHash with
  | .error f => .error f
  | .ok UTXOs => .ok (goSum (UTXOs.map fun out => out.Value))

instance Run.instDecidableEq {α : Type} [DecidableEq α] : DecidableEq (Run α)
  | .ok x, .ok y =>
    if h : x = y then isTrue (congrArg Except.ok h)
    else isFalse (fun e => h (Except.ok.inj e))
  | .error x, .error y =>
    if h : x = y then isTrue (congrArg Except.error h)
    else isFalse (fun e => h (Except.error.inj e))
  | .ok _, .error _ => isFalse (fun e => Except.noConfusion e)
  | .error _, .ok _ => isFalse (fun e => Except.noConfusion e)

/-! ## Runs of the ledger -/

/-- The store before `chain.db` holds anything. -/
def emptyDB : DB := ⟨none⟩

/-- The tip hash stored under the key `l`, as `MineBlock` reads it into `lastHash`. -/
def Blockchain.lastHash (bc : Blockchain) : Bytes :=
  match bc.db.blocks with
  | none => []
  | some b => (b.find tipKey).getD []

/-- The block a call of `MineBlock` builds from the stored tip. -/
def Blockchain.minedBlock (E : Env) (bc : Blockchain) (transactions : List Transaction)
    (now : Int) : Block :=
  E.NewBlock transactions bc.lastHash now

/-- A sequence of `MineBlock` calls, one per batch with its clock reading, all of which
return without a fault: the final handle and the blocks built, newest first, in front of
`built`. -/
def mineAll (E : Env) (fuel : Nat) :
    Blockchain → List Block → List (List Transaction × Int) → Option (Blockchain × List Block)
  | bc, built, [] => some (bc, built)
  | bc, built, (txs, now) :: rest =>
    match bc.MineBlock E fuel txs now with
    | (none, bc') => mineAll E fuel bc' (bc.minedBlock E txs now :: built) rest
    | (some _, _) => none

/-- The genesis block `NewBlockchain` mints for `address` on an empty store. -/
def genesisOf (E : Env) (address : GoString) (now : Int) : Block :=
  NewGenesisBlock E (E.NewCoinbaseTX address genesisCoinbaseData) now

/-- The ledger after `NewBlockchain(address)` on the empty store followed by successful
`MineBlock` calls, with the blocks built, newest first. -/
def runLedger (E : Env) (fuel : Nat) (address : GoString) (now : Int)
    (batches : List (List Transaction × Int)) : Option (Blockchain × List Block) :=
  mineAll E fuel (NewBlockchain E address now emptyDB) [genesisOf E address now] batches

/-! ## Ledgers written down block by block -/

/-- The bucket holding the given blocks, each under its hash, oldest written first. -/
def bucketOf (E : Env) : List Block → Bucket
  | [] => []
  | b :: older => (bucketOf E older).put b.Hash (E.Serialize b)

/-- The ledger whose store holds the given chain (newest block first) and whose tip, stored
and in the handle, is the hash of the newest block. -/
def ledgerOf (E : Env) (chain : List Block) : Blockchain :=
  let tip := (chain.head?.map fun b => b.Hash).getD []
  ⟨tip, ⟨some ((bucketOf E chain).put tipKey tip)⟩⟩

/-- A chain is linked when every block but the last names the hash of the next one, which
is not empty, as its predecessor, and the last one has the empty `PrevBlockHash`. -/
def Linked : List Block → Prop
  | [] => False
  | [g] => g.PrevBlockHash = []
  | b :: older :: rest => b.PrevBlockHash = older.Hash ∧ older.Hash ≠ [] ∧ Linked (older :: rest)

instance Linked.instDecidable : (chain : List Block) → Decidable (Linked chain)
  | [] => isFalse (fun h => h)
  | [g] => inferInstanceAs (Decidable (g.PrevBlockHash = []))
  | b :: older :: rest =>
    have := Linked.instDecidable (older :: rest)
    inferInstanceAs (Decidable (b.PrevBlockHash = older.Hash ∧ older.Hash ≠ [] ∧
      Linked (older :: rest)))

/-! ## The transactions of a chain and the words of the specification -/

/-- The transactions of a chain in walk order: blocks from the tip to genesis, and within
a block in block order. -/
def chainTxs (chain : List Block) : List Transaction :=
  chain.flatMap fun b => b.Transactions

/-- Some input of a non-coinbase transaction among `txs` references `(id, idx)`. -/
def referencedBy (txs : List Transaction) (id : Bytes) (idx : Nat) : Bool :=
  txs.any fun t => !t.IsCoinbase && t.Vin.any fun vin => vin.Txid == id && vin.Vout == (idx : Int)

/-- The outputs of `tx`, with their indices, that are locked to the key and not referenced
by an input of a non-coinbase transaction among `spenders`. -/
def liveOutputs (pubKeyHash : Bytes) (spenders : List Transaction) (tx : Transaction) :
    List (Nat × TXOutput) :=
  tx.Vout.enum.filter fun p => !referencedBy spenders tx.ID p.1 && p.2.IsLockedWithKey pubKeyHash

/-- The unspent outputs of a chain in the sense of the glossary: the outputs locked to the
key that no input of any non-coinbase transaction of the chain references, each once. -/
def unspentOutputsOf (pubKeyHash : Bytes) (txs : List Transaction) : List TXOutput :=
  txs.flatMap fun tx => (liveOutputs pubKeyHash txs tx).map fun p => p.2

/-- The outputs the walk finds unspent: for each transaction of `txs` in turn, its outputs
locked to the key that no input of a non-coinbase transaction visited earlier (`visited`,
then the transactions in front of it) references. -/
def walkUnspentOutputs (pubKeyHash : Bytes) :
    List Transaction → List Transaction → List (Transaction × Nat × TXOutput)
  | _, [] => []
  | visited, tx :: rest =>
    (liveOutputs pubKeyHash visited tx).map (fun p => (tx, p.1, p.2)) ++
      walkUnspentOutputs pubKeyHash (visited ++ [tx]) rest

/-! ## The outputs `FindSpendableOutputs` goes through -/

/-- An output met by `FindSpendableOutputs`: the hex id of its transaction, its index and
the output. -/
abbrev Candidate := GoString × Nat × TXOutput

/-- The outputs locked to the key in the transactions handed to `FindSpendableOutputs`, in
the order its two loops meet them. -/
def candidates (pubKeyHash : Bytes) (unspentTXs : List Transaction) : List Candidate :=
  unspentTXs.flatMap fun tx =>
    (tx.Vout.enum.filter fun p => p.2.IsLockedWithKey pubKeyHash).map
      fun p => (hexEncode tx.ID, p.1, p.2)

/-- The statement `unspentOutputs[txID] = append(unspentOutputs[txID], outIdx)`. -/
def addOutput (m : IndexMap) (c : Candidate) : IndexMap :=
  m.put c.1 (m.get c.1 [] ++ [(c.2.1 : Int)])

/-- The body of the two loops of `FindSpendableOutputs`, over the outputs locked to the
key. -/
def takeCandidates (amount : Int) : List Candidate → SpendState → SpendState
  | [], st => st
  | c :: cs, st =>
    if st.accumulated < amount then
      let accumulated := wrapInt (st.accumulated + c.2.2.Value)
      if accumulated ≥ amount then ⟨accumulated, addOutput st.unspentOutputs c, true⟩
      else takeCandidates amount cs ⟨accumulated, addOutput st.unspentOutputs c, false⟩
    else takeCandidates amount cs st

/-- The pairs (hex transaction id, output index) listed in an index map. -/
def entries (m : IndexMap) : List (GoString × Int) :=
  m.flatMap fun kv => kv.2.map fun i => (kv.1, i)

/-- The `Value` of the output a pair (hex transaction id, output index) denotes among the
given transactions: output `i` of the first transaction with that id; `0` if there is
none. -/
def valueAt (txs : List Transaction) (e : GoString × Int) : Int :=
  match txs.find? (fun tx => hexEncode tx.ID == e.1) with
  | none => 0
  | some tx =>
    match indexInt tx.Vout e.2 with
    | none => 0
    | some out => out.Value

/-- The Go `int` reached by adding the values of the given outputs to `start`. -/
def accumulate (start : Int) (cs : List Candidate) : Int :=
  cs.foldl (fun a c => wrapInt (a + c.2.2.Value)) start

/-! ## Verification against a chain -/

/-- The previous-transactions map `VerifyTransaction` builds over the transactions of the
walked chain: for each input in turn the first transaction with the input's `Txid`, or the
zero transaction when there is none, stored under the hex of its own `ID`. -/
def prevTXsOf (txs : List Transaction) :
    List TXInput → GoMap GoString Transaction → GoMap GoString Transaction
  | [], prevTXs => prevTXs
  | vin :: rest, prevTXs =>
    let prevTX := (txs.find? fun tx => tx.ID == vin.Txid).getD Transaction.zero
    prevTXsOf txs rest (prevTXs.put (hexEncode prevTX.ID) prevTX)

/-! ## Invariants -/

/-- The index map lists under the hex of each id exactly the output indices referenced by
the inputs of the non-coinbase transactions among `visited`. -/
def SpentInv (spentTXOs : IndexMap) (visited : List Transaction) : Prop :=
  ∀ (id : Bytes) (j : Int), j ∈ spentTXOs.get (hexEncode id) [] ↔
    ∃ t ∈ visited, t.IsCoinbase = false ∧ ∃ vin ∈ t.Vin, vin.Txid = id ∧ vin.Vout = j

/-- The bucket stores every block of the list, serialized, under its hash. -/
def Stores (E : Env) (b : Bucket) (chain : List Block) : Prop :=
  ∀ blk ∈ chain, b.find blk.Hash = some (E.Serialize blk)

/-- The state of a ledger that holds the chain `built` (newest first): the handle's tip
and the stored tip are the hash of the newest block, every block is stored under its
hash, the blocks are linked and sealed under 32-byte hashes. -/
def LedgerInv (E : Env) (bc : Blockchain) (built : List Block) : Prop :=
  ∃ head older bucket, built = head :: older ∧ bc.tip = head.Hash ∧
    bc.db.blocks = some bucket ∧ bucket.find tipKey = some head.Hash ∧
    Stores E bucket built ∧ Linked built ∧ ∀ blk ∈ built, blk.Hash.length = 32

/-- The stored tip names a stored block: the key `l` holds the hash of a block that the
bucket stores, serialized, under that hash, and the handle's tip is that hash. -/
def TipStored (E : Env) (bc : Blockchain) : Prop :=
  ∃ bucket block, bc.db.blocks = some bucket ∧ bucket.find tipKey = some block.Hash ∧
    bucket.find block.Hash = some (E.Serialize block) ∧ bc.tip = block.Hash

/-- Every input of a non-coinbase transaction of the chain references an output that exists
in the chain: some transaction of the chain has the input's `Txid` as `ID` and an output at
the index `Vout`. -/
def InputsExist (chain : List Block) : Prop :=
  ∀ tx ∈ chainTxs chain, tx.IsCoinbase = false → ∀ vin ∈ tx.Vin,
    ∃ t ∈ chainTxs chain, t.ID = vin.Txid ∧ ∃ out, indexInt t.Vout vin.Vout = some out

/-- No output is referenced by two inputs of non-coinbase transactions of the chain: the
references `(Txid, Vout)` of all those inputs, in walk order, are pairwise distinct. -/
def NoDoubleSpend (chain : List Block) : Prop :=
  (((chainTxs chain).filter fun tx => !tx.IsCoinbase).flatMap fun tx =>
    tx.Vin.map fun vin => (vin.Txid, vin.Vout)).Nodup

instance NoDoubleSpend.instDecidable (chain : List Block) : Decidable (NoDoubleSpend chain) :=
  inferInstanceAs (Decidable (List.Nodup _))

/-! ## A small environment

An instance of `Env` on which concrete ledgers can be written down: blocks are sealed
under 32 copies of the low byte of the clock reading, the codec goes through the
encoding of blocks as natural numbers, hashes are the identity and a signature is the
digest followed by the public key. -/

instance : Encodable TXInput :=
  Encodable.ofLeftInjection (fun x => (x.Txid, x.Vout, x.Signature, x.PubKey))
    (fun t => some ⟨t.1, t.2.1, t.2.2.1, t.2.2.2⟩) (fun _ => rfl)

instance : Encodable TXOutput :=
  Encodable.ofLeftInjection (fun x => (x.Value, x.PubKeyHash))
    (fun t => some ⟨t.1, t.2⟩) (fun _ => rfl)

instance : Encodable Transaction :=
  Encodable.ofLeftInjection (fun x => (x.ID, x.Vin, x.Vout))
    (fun t => some ⟨t.1, t.2.1, t.2.2⟩) (fun _ => rfl)

instance : Encodable Block :=
  Encodable.ofLeftInjection
    (fun x => (x.Timestamp, x.Transactions, x.PrevBlockHash, x.Hash, x.Nonce))
    (fun t => some ⟨t.1, t.2.1, t.2.2.1, t.2.2.2.1, t.2.2.2.2⟩) (fun _ => rfl)

/-- The bytes of a string of small characters. -/
def bytesOf (s : GoString) : Bytes := s.map fun c => Fin.ofNat c.toNat

/-- The small environment. -/
def demoEnv : Env where
  NewBlock := fun txs prev now => ⟨now, txs, prev, List.replicate 32 (Fin.ofNat now.toNat), 0⟩
  Serialize := fun b => (Nat.digits 256 (Encodable.encode b)).map fun d => Fin.ofNat d
  DeserializeBlock := fun bs => Encodable.decode (Nat.ofDigits 256 (bs.map fun d => d.val))
  NewCoinbaseTX := fun addr data =>
    ⟨List.replicate 32 0, [⟨[], -1, [], bytesOf data⟩], [⟨50, bytesOf addr⟩]⟩
  sha256 := fun bs => bs
  ripemd160 := fun bs => bs
  ecdsaVerify := fun pubKey digest signature => signature == digest ++ pubKey
  signingDigest := fun tx i lock => tx.ID ++ [Fin.ofNat i] ++ lock

/-! ## Example ledgers -/

/-- The public-key hash of a first owner. -/
def alice : Bytes := [1]

/-- The public-key hash of a second owner. -/
def bob : Bytes := [2]

/-- A 32-byte hash made of one repeated byte. -/
def hashOf (n : Fin 256) : Bytes := List.replicate 32 n

/-- A chain in which the transaction of the genesis block spends output 0 of the coinbase
transaction of the tip block: the spending input is visited after the output. -/
def lateSpendChain : List Block :=
  [⟨1, [⟨[7], [⟨[], -1, [], []⟩], [⟨5, alice⟩]⟩], hashOf 0, hashOf 1, 0⟩,
   ⟨0, [⟨[8], [⟨[7], 0, [], []⟩], [⟨5, bob⟩]⟩], [], hashOf 0, 0⟩]

/-- A chain of a genesis coinbase of 50 to the first owner and one block in which 10 of it
are sent to the second owner, 40 going back as change. -/
def sendChain : List Block :=
  [⟨1, [⟨[8], [⟨[7], 0, [], []⟩], [⟨10, bob⟩, ⟨40, alice⟩]⟩], hashOf 0, hashOf 1, 0⟩,
   ⟨0, [⟨[7], [⟨[], -1, [], []⟩], [⟨50, alice⟩]⟩], [], hashOf 0, 0⟩]

/-- A chain of a genesis coinbase of 50 to the first owner and one block in which the owner
sends 10 to itself (`send Alice Alice 10`): the payment and the change of 40 are both
locked to the sender. -/
def selfSendChain : List Block :=
  [⟨1, [⟨[8], [⟨[7], 0, [], []⟩], [⟨10, alice⟩, ⟨40, alice⟩]⟩], hashOf 0, hashOf 1, 0⟩,
   ⟨0, [⟨[7], [⟨[], -1, [], []⟩], [⟨50, alice⟩]⟩], [], hashOf 0, 0⟩]

/-- A chain in which the transaction sending 10 to the second owner was mined twice. -/
def replayChain : List Block :=
  [⟨2, [⟨[8], [⟨[7], 0, [], []⟩], [⟨10, bob⟩, ⟨40, alice⟩]⟩], hashOf 1, hashOf 2, 0⟩,
   ⟨1, [⟨[8], [⟨[7], 0, [], []⟩], [⟨10, bob⟩, ⟨40, alice⟩]⟩], hashOf 0, hashOf 1, 0⟩,
   ⟨0, [⟨[7], [⟨[], -1, [], []⟩], [⟨50, alice⟩]⟩], [], hashOf 0, 0⟩]

/-- An address of the small environment. -/
def demoAddress : GoString := ['A']

/-- A transaction spending output 0 of the genesis coinbase of `demoAddress`, signed as the
small environment requires: the public key hashes to the lock of the output spent and the
signature is the signing digest followed by the key. -/
def demoSpend : Transaction :=
  ⟨[8], [⟨List.replicate 32 0, 0, [8, 0, 65, 65], [65]⟩], [⟨10, bob⟩, ⟨40, [65]⟩]⟩

/-- A transaction whose input references a transaction id that is in no chain here. -/
def strayTx : Transaction :=
  ⟨[9], [⟨[3], 0, [], []⟩], [⟨1, bob⟩]⟩

/-- The chain the small environment builds when `demoSpend` is mined twice, at the clock
readings 1 and 2, on the ledger `NewBlockchain` creates for `demoAddress` at reading 0. -/
def demoReplay : List Block :=
  [demoEnv.NewBlock [demoSpend] (hashOf 1) 2, demoEnv.NewBlock [demoSpend] (hashOf 0) 1,
    genesisOf demoEnv demoAddress 0]

/-! ## Wallets (`core/wallet.go`) -/

/-- The struct `ecdsa.PublicKey`: the two coordinates of the curve point. -/
structure PublicKey where
  X : Nat
  Y : Nat
deriving DecidableEq

/-- The struct `ecdsa.PrivateKey`: the public key and the secret scalar. -/
structure PrivateKey where
  PublicKey : PublicKey
  D : Nat
deriving DecidableEq

/-- The struct `Wallet`. -/
structure Wallet where
  PrivateKey : PrivateKey
  PublicKey : Bytes
deriving DecidableEq

set_option linter.dupNamespace false in
/-- The struct `Wallets`: addresses to wallets. -/
structure Wallets where
  Wallets : GoMap GoString Wallet
deriving DecidableEq

/-- The constant `version`. -/
def version : Fin 256 := 0

/-- The constant `addressChecksumLen`. -/
def addressChecksumLen : Nat := 4

/-- The method `big.Int.Bytes` on a non-negative integer: the big-endian bytes without
leading zeros, none at all for `0`. -/
def bigBytes (n : Nat) : Bytes :=
  (Nat.digits 256 n).reverse.map fun d => Fin.ofNat d

/-- The function `newKeyPair`, on the key `ecdsa.GenerateKey` has returned without error:
`append(private.PublicKey.X.Bytes(), private.PublicKey.Y.Bytes()...)`. -/
def newKeyPair (generated : PrivateKey) : PrivateKey × Bytes :=
  let pubKey := bigBytes generated.PublicKey.X ++ bigBytes generated.PublicKey.Y
  (generated, pubKey)

/-- The function `checksum`: the first `addressChecksumLen` bytes of the double SHA-256. -/
def checksum (E : Env) (payload : Bytes) : Bytes :=
  let firstSHA := E.sha256 payload
  let secondSHA := E.sha256 firstSHA
  secondSHA.take addressChecksumLen

/-- The slice `fullPayload` of `GetAddress`: version byte, public-key hash, checksum. -/
def fullPayload (E : Env) (publicKey : Bytes) : Bytes :=
  let pubKeyHash := HashPubKey E publicKey
  let versionedPayload := [version] ++ pubKeyHash
  versionedPayload ++ checksum E versionedPayload

/-- The method `Wallet.GetAddress`; `Base58Encode` (base58.go) is not among the sources and
is taken as a parameter. -/
def Wallet.GetAddress (E : Env) (Base58Encode : Bytes → Bytes) (w : Wallet) : Bytes :=
  Base58Encode (fullPayload E w.PublicKey)

/-- The file `wallet.db` as `os.Stat` and `ioutil.ReadFile` see it. -/
inductive WalletFile where
  /-- There is no such file. -/
  | absent
  /-- The file exists and holds these bytes. -/
  | present (content : Bytes)
deriving DecidableEq

/-- The errors a wallet function returns to its caller. -/
inductive OsError where
  /-- The error of `os.Stat` for which `os.IsNotExist` holds. -/
  | notExist
deriving DecidableEq

/-- The method `Wallets.LoadFromFile`: the collection afterwards and the error returned;
`gobDecode` is the gob decoder, `none` when it fails and `log.Panic` is called. -/
def Wallets.LoadFromFile (gobDecode : Bytes → Option (GoMap GoString Wallet))
    (file : WalletFile) (ws : Linkchain.Wallets) :
    Run (Linkchain.Wallets × Option OsError) :=
  match file with
  | .absent => .ok (ws, some .notExist)
  | .present fileContent =>
    match gobDecode fileContent with
    | none => .error .decode
    | some wallets => .ok (⟨wallets⟩, none)

/-- The function `NewWallets`: the collection and the error it returns. The source calls
`LoadFromFile` on the name `wallets`, which it does not declare; the collection `ws` under
construction is taken for it. -/
def NewWallets (gobDecode : Bytes → Option (GoMap GoString Wallet)) (file : WalletFile) :
    Run (Wallets × Option OsError) :=
  let ws : Wallets := ⟨[]⟩
  match ws.LoadFromFile gobDecode file with
  | .error f => .error f
  | .ok (ws, err) => .ok (ws, err)

/-- The method `Blockchain.SignTransaction`; `Sign` (transaction.go) is not among the
sources and is taken as a parameter, the result being the transaction it leaves signed. -/
def Blockchain.SignTransaction (E : Env) (fuel : Nat) (bc : Blockchain)
    (Sign : Transaction → PrivateKey → GoMap GoString Transaction → Transaction)
    (tx : Transaction) (privKey : PrivateKey) : Run Transaction :=
  match bc.collectPrevTXs E fuel tx.Vin [] with
  | .error f => .error f
  | .ok prevTXs => .ok (Sign tx privKey prevTXs)

/-- The small environment with hashes of the sizes of SHA-256 and RIPEMD-160: the input
cut or zero-filled to 32 and to 20 bytes. -/
def hashEnv : Env :=
  { demoEnv with
    sha256 := fun bs => (bs ++ List.replicate 32 0).take 32
    ripemd160 := fun bs => (bs ++ List.replicate 20 0).take 20 }

/-- A chain whose only transaction has the empty `ID`. -/
def emptyIdChain : List Block :=
  [⟨0, [⟨[], [⟨[], -1, [], []⟩], [⟨50, alice⟩]⟩], [], hashOf 0, 0⟩]

/-- A transaction with two inputs: the first references the empty id, the second an id
that is in no chain here. -/
def twoInputTx : Transaction :=
  ⟨[8], [⟨[], 0, [], []⟩, ⟨[9], 0, [], []⟩], [⟨1, bob⟩]⟩

/-- A chain of two coinbase transactions that each pay `2 ^ 62` to the first owner. -/
def overflowChain : List Block :=
  [⟨1, [⟨[8], [⟨[], -1, [], []⟩], [⟨2 ^ 62, alice⟩]⟩], hashOf 0, hashOf 1, 0⟩,
   ⟨0, [⟨[7], [⟨[], -1, [], []⟩], [⟨2 ^ 62, alice⟩]⟩], [], hashOf 0, 0⟩]

/-- The P-256 key pair with the secret scalar 379: the `X` coordinate of its public point
is below `2 ^ 248`. -/
def shortKey : PrivateKey :=
  ⟨⟨150648118917499357041517299508400176508249743050667881623588564208998400010,
    84717705411573186131289082852425264859825270454499335430265137682489917325202⟩, 379⟩

/-! ## Go values: lemmas -/

theorem hexDigit_inj_fin : ∀ a b : Fin 16, hexDigit a.val = hexDigit b.val → a = b := by
  decide

theorem hexDigit_inj {a b : Nat} (ha : a < 16) (hb : b < 16)
    (h : hexDigit a = hexDigit b) : a = b := by
  have := hexDigit_inj_fin ⟨a, ha⟩ ⟨b, hb⟩ h
  exact congrArg Fin.val this

theorem hexEncode_inj : ∀ {a b : Bytes}, hexEncode a = hexEncode b → a = b
  | [], [], _ => rfl
  | [], _ :: _, h => by simp [hexEncode] at h
  | _ :: _, [], h => by simp [hexEncode] at h
  | x :: xs, y :: ys, h => by
    simp only [hexEncode, List.cons.injEq] at h
    obtain ⟨h1, h2, h3⟩ := h
    have e1 := hexDigit_inj (by omega) (by omega) h1
    have e2 := hexDigit_inj (by omega) (by omega) h2
    have hxy : x = y := by
      apply Fin.ext
      omega
    rw [hxy, hexEncode_inj h3]

theorem hexEncode_eq_iff {a b : Bytes} : hexEncode a = hexEncode b ↔ a = b :=
  ⟨hexEncode_inj, fun h => by rw [h]⟩

theorem GoMap.get_put {κ ν : Type} [DecidableEq κ] (m : GoMap κ ν) (k k' : κ) (v zero : ν) :
    (m.put k v).get k' zero = if k = k' then v else m.get k' zero := by
  induction m with
  | nil => simp [GoMap.put, GoMap.get]
  | cons p rest ih =>
    obtain ⟨k0, v0⟩ := p
    by_cases h0 : k0 = k
    · subst h0
      by_cases h1 : k0 = k' <;> simp [GoMap.put, GoMap.get, h1]
    · by_cases h1 : k0 = k'
      · subst h1
        simp [GoMap.put, GoMap.get, h0, Ne.symm h0]
      · simp [GoMap.put, GoMap.get, h0, h1, ih]

theorem GoMap.find_put {κ ν : Type} [DecidableEq κ] (m : GoMap κ ν) (k k' : κ) (v : ν) :
    (m.put k v).find k' = if k = k' then some v else m.find k' := by
  induction m with
  | nil => simp [GoMap.put, GoMap.find]
  | cons p rest ih =>
    obtain ⟨k0, v0⟩ := p
    by_cases h0 : k0 = k
    · subst h0
      by_cases h1 : k0 = k' <;> simp [GoMap.put, GoMap.find, h1]
    · by_cases h1 : k0 = k'
      · subst h1
        simp [GoMap.put, GoMap.find, h0, Ne.symm h0]
      · simp [GoMap.put, GoMap.find, h0, h1, ih]

theorem wrapInt_of_range {x : Int} (h1 : -2 ^ 63 ≤ x) (h2 : x < 2 ^ 63) : wrapInt x = x := by
  unfold wrapInt
  rw [Int.emod_eq_of_lt (by omega) (by omega)]
  omega

theorem wrapInt_add_wrapInt (a b : Int) : wrapInt (wrapInt a + b) = wrapInt (a + b) := by
  unfold wrapInt
  have : (a + 2 ^ 63) % 2 ^ 64 - 2 ^ 63 + b + 2 ^ 63 = (a + 2 ^ 63) % 2 ^ 64 + b := by ring
  rw [this, Int.emod_add_emod]
  congr 2
  ring

theorem wrapInt_wrapInt (a : Int) : wrapInt (wrapInt a) = wrapInt a := by
  have := wrapInt_add_wrapInt a 0
  simpa using this

theorem foldl_wrapInt (vs : List Int) (s : Int) :
    vs.foldl (fun s v => wrapInt (s + v)) (wrapInt s) = wrapInt (s + vs.sum) := by
  induction vs generalizing s with
  | nil => simp
  | cons v vs ih =>
    simp only [List.foldl_cons, List.sum_cons]
    rw [wrapInt_add_wrapInt, ih]
    congr 1
    ring

theorem goSum_eq (vs : List Int) : goSum vs = wrapInt vs.sum := by
  have h0 : wrapInt 0 = 0 := by decide
  have := foldl_wrapInt vs 0
  rw [h0] at this
  simpa [goSum] using this

/-! ## The walk of the iterator -/

theorem scanTransactions_append (h : Bytes) (xs ys : List Transaction)
    (st : IndexMap × List Transaction) :
    scanTransactions h (xs ++ ys) st = scanTransactions h ys (scanTransactions h xs st) := by
  induction xs generalizing st with
  | nil => rfl
  | cons x xs ih =>
    obtain ⟨sp, un⟩ := st
    simp only [List.cons_append, scanTransactions]
    exact ih _

theorem chainTxs_cons (b : Block) (rest : List Block) :
    chainTxs (b :: rest) = b.Transactions ++ chainTxs rest := by
  simp [chainTxs]

theorem blocks_ne_nil {E : Env} {fuel : Nat} {bci : BlockchainIterator} {chain : List Block}
    (hw : BlockchainIterator.blocks E fuel bci = .ok chain) : chain ≠ [] := by
  cases fuel with
  | zero => simp [BlockchainIterator.blocks] at hw
  | succ n =>
    simp only [BlockchainIterator.blocks] at hw
    split at hw
    · simp at hw
    · split at hw
      · cases hw; simp
      · split at hw
        · simp at hw
        · cases hw; simp

/-- More fuel does not change a walk that has finished. -/
theorem blocks_mono {E : Env} {fuel : Nat} {bci : BlockchainIterator} {chain : List Block}
    (hw : BlockchainIterator.blocks E fuel bci = .ok chain) (k : Nat) :
    BlockchainIterator.blocks E (fuel + k) bci = .ok chain := by
  induction fuel generalizing bci chain with
  | zero => simp [BlockchainIterator.blocks] at hw
  | succ n ih =>
    have e : n + 1 + k = (n + k) + 1 := by omega
    rw [e]
    simp only [BlockchainIterator.blocks] at hw ⊢
    split at hw
    · simp at hw
    · rename_i block bci2 hn
      split at hw
      · rename_i hp
        simp [hp, hw]
      · rename_i hp
        simp only [hp, if_false]
        split at hw
        · simp at hw
        · rename_i rest hr
          rw [ih hr]
          simpa using hw

/-- The loop of `FindUnspentTransactions` scans the transactions of the walked chain. -/
theorem findUnspent_loop_of_blocks {E : Env} (h : Bytes) {fuel : Nat}
    {bci : BlockchainIterator} {chain : List Block}
    (hw : BlockchainIterator.blocks E fuel bci = .ok chain) (st : IndexMap × List Transaction) :
    FindUnspentTransactions.loop E h fuel bci st =
      .ok (scanTransactions h (chainTxs chain) st).2 := by
  induction fuel generalizing bci chain st with
  | zero => simp [BlockchainIterator.blocks] at hw
  | succ n ih =>
    simp only [BlockchainIterator.blocks] at hw
    simp only [FindUnspentTransactions.loop]
    split at hw
    · simp at hw
    · rename_i block bci2 hn
      split at hw
      · rename_i hp
        cases hw
        simp [hp, chainTxs]
      · rename_i hp
        simp only [hp, if_false]
        split at hw
        · simp at hw
        · rename_i rest hr
          cases hw
          rw [ih hr, chainTxs_cons, scanTransactions_append]

/-- The loop of `FindTransaction` returns the first transaction of the walked chain with
the given `ID`, and the not-found error when there is none. -/
theorem findTransaction_loop_of_blocks {E : Env} (id : Bytes) {fuel : Nat}
    {bci : BlockchainIterator} {chain : List Block}
    (hw : BlockchainIterator.blocks E fuel bci = .ok chain) :
    FindTransaction.loop E id fuel bci =
      .ok (match (chainTxs chain).find? (fun tx => tx.ID == id) with
        | some tx => (tx, none)
        | none => (Transaction.zero, some errNotFound)) := by
  induction fuel generalizing bci chain with
  | zero => simp [BlockchainIterator.blocks] at hw
  | succ n ih =>
    simp only [BlockchainIterator.blocks] at hw
    simp only [FindTransaction.loop]
    split at hw
    · simp at hw
    · rename_i block bci2 hn
      split at hw
      · rename_i hp
        cases hw
        simp only [chainTxs, List.flatMap_cons, List.flatMap_nil, List.append_nil]
        cases hf : block.Transactions.find? (fun tx => tx.ID == id) with
        | some tx => simp
        | none => simp [hp]
      · rename_i hp
        split at hw
        · simp at hw
        · rename_i rest hr
          cases hw
          rw [chainTxs_cons, List.find?_append]
          cases hf : block.Transactions.find? (fun tx => tx.ID == id) with
          | some tx => simp
          | none => simp [hp, ih hr]

/-- A ledger whose bucket stores a linked chain is walked block by block. -/
theorem blocks_of_stores {E : Env} (hE : E.Lawful) (bucket : Bucket) :
    ∀ (head : Block) (older : List Block), Stores E bucket (head :: older) →
      Linked (head :: older) →
      BlockchainIterator.blocks E (older.length + 1) ⟨head.Hash, ⟨some bucket⟩⟩ =
        .ok (head :: older) := by
  intro head older
  induction older generalizing head with
  | nil =>
    intro hs hl
    have hfind := hs head (by simp)
    simp only [Linked] at hl
    simp [BlockchainIterator.blocks, BlockchainIterator.Next, hfind, hE.decode_encode, hl]
  | cons nxt rest ih =>
    intro hs hl
    have hfind := hs head (by simp)
    obtain ⟨hp, hne, hl2⟩ := hl
    have hs2 : Stores E bucket (nxt :: rest) := fun blk hb => hs blk (List.mem_cons_of_mem _ hb)
    have hrec := ih nxt hs2 hl2
    have hlen : ¬ head.PrevBlockHash.length = 0 := by
      rw [hp]
      intro h0
      exact hne (List.length_eq_zero.mp h0)
    have hnext : BlockchainIterator.Next E ⟨head.Hash, ⟨some bucket⟩⟩ =
        .ok (head, ⟨nxt.Hash, ⟨some bucket⟩⟩) := by
      simp [BlockchainIterator.Next, hfind, hE.decode_encode, hp]
    rw [List.length_cons, BlockchainIterator.blocks, hnext]
    simp only [hlen, if_false]
    rw [hrec]

/-! ## What the scan of `FindUnspentTransactions` computes -/

theorem referencedBy_iff (txs : List Transaction) (id : Bytes) (idx : Nat) :
    referencedBy txs id idx = true ↔
      ∃ t ∈ txs, t.IsCoinbase = false ∧ ∃ vin ∈ t.Vin, vin.Txid = id ∧ vin.Vout = (idx : Int) := by
  simp [referencedBy]

theorem recordInputs_get (vins : List TXInput) (m : IndexMap) (k : GoString) (j : Int) :
    j ∈ (recordInputs vins m).get k [] ↔
      j ∈ m.get k [] ∨ ∃ vin ∈ vins, hexEncode vin.Txid = k ∧ vin.Vout = j := by
  induction vins generalizing m with
  | nil => simp [recordInputs]
  | cons vin rest ih =>
    simp only [recordInputs, ih, GoMap.get_put, List.mem_cons, exists_eq_or_imp]
    by_cases hk : hexEncode vin.Txid = k
    · subst hk
      simp only [if_true, List.mem_append, List.mem_singleton, true_and]
      constructor
      · rintro ((h | h) | h)
        · exact Or.inl h
        · exact Or.inr (Or.inl h.symm)
        · exact Or.inr (Or.inr h)
      · rintro (h | h | h)
        · exact Or.inl (Or.inl h)
        · exact Or.inl (Or.inr h.symm)
        · exact Or.inr h
    · simp [hk]

theorem SpentInv.nil : SpentInv [] [] := by
  intro id j
  simp [GoMap.get]

theorem SpentInv.step {m : IndexMap} {visited : List Transaction} (hm : SpentInv m visited)
    (tx : Transaction) :
    SpentInv (if tx.IsCoinbase == false then recordInputs tx.Vin m else m) (visited ++ [tx]) := by
  intro id j
  by_cases hc : tx.IsCoinbase = true
  · simp only [hc, Bool.true_eq_false, beq_iff_eq, if_false, hm id j, List.mem_append,
      List.mem_singleton]
    constructor
    · rintro ⟨t, ht, h⟩
      exact ⟨t, Or.inl ht, h⟩
    · rintro ⟨t, ht | ht, h1, h2⟩
      · exact ⟨t, ht, h1, h2⟩
      · subst ht
        rw [hc] at h1
        cases h1
  · have hc2 : tx.IsCoinbase = false := by simpa using hc
    simp only [hc2, beq_self_eq_true, if_true, recordInputs_get, hm id j, List.mem_append,
      List.mem_singleton, hexEncode_eq_iff]
    constructor
    · rintro (⟨t, ht, h⟩ | h)
      · exact ⟨t, Or.inl ht, h⟩
      · exact ⟨tx, Or.inr rfl, hc2, h⟩
    · rintro ⟨t, ht | ht, h1, h2⟩
      · exact Or.inl ⟨t, ht, h1, h2⟩
      · subst ht
        exact Or.inr h2

/-- The `Outputs:` loop appends one copy of the transaction for each output that is locked
to the key and whose index the index map does not list. -/
theorem scanOutputs_eq {h : Bytes} {m : IndexMap} {visited : List Transaction}
    (hm : SpentInv m visited) (tx : Transaction) (outs : List TXOutput) (n : Nat)
    (acc : List Transaction) :
    scanOutputs h m tx n outs acc =
      acc ++ ((outs.enumFrom n).filter fun p =>
        !referencedBy visited tx.ID p.1 && p.2.IsLockedWithKey h).map fun _ => tx := by
  induction outs generalizing n acc with
  | nil => simp [scanOutputs]
  | cons out outs ih =>
    have key : (GoMap.get m (hexEncode tx.ID) [] ≠ [] ∧
        (GoMap.get m (hexEncode tx.ID) []).any (fun spentOut => spentOut == (n : Int)) = true) ↔
        referencedBy visited tx.ID n = true := by
      rw [referencedBy_iff, ← hm tx.ID n]
      simp only [List.any_eq_true, beq_iff_eq, exists_eq_right]
      constructor
      · exact fun hh => hh.2
      · intro hh
        exact ⟨List.ne_nil_of_mem hh, hh⟩
    simp only [scanOutputs, List.enumFrom_cons]
    by_cases hr : referencedBy visited tx.ID n = true
    · rw [if_pos (key.mpr hr), ih]
      simp [List.filter_cons, hr]
    · rw [if_neg (fun hh => hr (key.mp hh))]
      have hr2 : referencedBy visited tx.ID n = false := by simpa using hr
      by_cases hl : out.IsLockedWithKey h = true
      · rw [if_pos hl, ih]
        simp [List.filter_cons, hr2, hl]
      · rw [if_neg hl, ih]
        have hl2 : out.IsLockedWithKey h = false := by simpa using hl
        simp [List.filter_cons, hr2, hl2]

/-- The scan appends, for each transaction in turn, one copy per output of the walk's
unspent outputs, and keeps the index map in step with the transactions visited. -/
theorem scanTransactions_eq (h : Bytes) (txs : List Transaction) :
    ∀ (m : IndexMap) (visited acc : List Transaction), SpentInv m visited →
      ∃ m2, SpentInv m2 (visited ++ txs) ∧
        scanTransactions h txs (m, acc) =
          (m2, acc ++ (walkUnspentOutputs h visited txs).map fun p => p.1) := by
  induction txs with
  | nil =>
    intro m visited acc hm
    exact ⟨m, by simpa using hm, by simp [scanTransactions, walkUnspentOutputs]⟩
  | cons tx rest ih =>
    intro m visited acc hm
    obtain ⟨m2, hm2, e⟩ := ih _ (visited ++ [tx])
      (scanOutputs h m tx 0 tx.Vout acc) (hm.step tx)
    refine ⟨m2, by simpa using hm2, ?_⟩
    simp only [scanTransactions]
    rw [e, scanOutputs_eq hm]
    simp [walkUnspentOutputs, liveOutputs, List.enum]

/-- The result of `FindUnspentTransactions` on a ledger whose walk yields `chain`. -/
theorem findUnspentTransactions_eq {E : Env} {fuel : Nat} {bc : Blockchain}
    {chain : List Block} (hw : bc.blocks E fuel = .ok chain) (h : Bytes) :
    bc.FindUnspentTransactions E fuel h =
      .ok ((walkUnspentOutputs h [] (chainTxs chain)).map fun p => p.1) := by
  unfold Blockchain.FindUnspentTransactions
  rw [findUnspent_loop_of_blocks h hw]
  obtain ⟨m2, _, e⟩ := scanTransactions_eq h (chainTxs chain) [] [] [] SpentInv.nil
  rw [e]
  simp

/-! ## Ledgers written down block by block -/

theorem demoEnv_lawful : demoEnv.Lawful where
  newBlock_transactions := fun _ _ _ => rfl
  newBlock_prev := fun _ _ _ => rfl
  newBlock_hash := fun _ _ _ => by simp [demoEnv]
  decode_encode := fun b => by
    have hd : ((Nat.digits 256 (Encodable.encode b)).map fun d => (Fin.ofNat d : Fin 256)).map
        (fun d => d.val) = Nat.digits 256 (Encodable.encode b) := by
      rw [List.map_map]
      conv_rhs => rw [← List.map_id (Nat.digits 256 (Encodable.encode b))]
      apply List.map_congr_left
      intro d hd
      have hlt : d < 256 := Nat.digits_lt_base (by norm_num) hd
      simp [Fin.ofNat, Nat.mod_eq_of_lt hlt]
    show Encodable.decode (Nat.ofDigits 256
      (((Nat.digits 256 (Encodable.encode b)).map fun d => (Fin.ofNat d : Fin 256)).map
        fun d => d.val)) = some b
    rw [hd, Nat.ofDigits_digits, Encodable.encodek]
  coinbase := fun _ _ => by simp [demoEnv, Transaction.IsCoinbase]

theorem find_bucketOf (E : Env) :
    ∀ (chain : List Block), (chain.map fun b => b.Hash).Nodup →
      Stores E (bucketOf E chain) chain := by
  intro chain
  induction chain with
  | nil => intro _ blk hb; simp at hb
  | cons b older ih =>
    intro hnd blk hb
    simp only [List.map_cons, List.nodup_cons, List.mem_map, not_exists, not_and] at hnd
    simp only [bucketOf, GoMap.find_put]
    rcases List.mem_cons.mp hb with rfl | hb2
    · simp
    · have hne : ¬ b.Hash = blk.Hash := fun e => hnd.1 blk hb2 e.symm
      rw [if_neg hne]
      exact ih hnd.2 blk hb2

/-- The walk of a ledger written down block by block yields those blocks. -/
theorem blocks_ledgerOf {E : Env} (hE : E.Lawful) (chain : List Block) (hl : Linked chain)
    (hnd : (chain.map fun b => b.Hash).Nodup) (htip : ∀ blk ∈ chain, blk.Hash ≠ tipKey) :
    (ledgerOf E chain).blocks E chain.length = .ok chain := by
  cases chain with
  | nil => simp [Linked] at hl
  | cons head older =>
    have hs : Stores E ((bucketOf E (head :: older)).put tipKey head.Hash) (head :: older) := by
      intro blk hb
      rw [GoMap.find_put, if_neg (fun e => htip blk hb e.symm)]
      exact find_bucketOf E _ hnd blk hb
    have := blocks_of_stores hE _ head older hs hl
    simpa [Blockchain.blocks, Blockchain.Iterator, ledgerOf] using this

theorem findUTXO_eq {E : Env} {fuel : Nat} {bc : Blockchain}
    {chain : List Block} (hw : bc.blocks E fuel = .ok chain) (h : Bytes) :
    bc.FindUTXO E fuel h =
      .ok (collectUTXOs h ((walkUnspentOutputs h [] (chainTxs chain)).map fun p => p.1)) := by
  unfold Blockchain.FindUTXO
  rw [findUnspentTransactions_eq hw]

theorem blocks_lateSpendChain :
    (ledgerOf demoEnv lateSpendChain).blocks demoEnv 2 = .ok lateSpendChain :=
  blocks_ledgerOf demoEnv_lawful lateSpendChain (by decide) (by decide) (by decide)

theorem blocks_sendChain :
    (ledgerOf demoEnv sendChain).blocks demoEnv 2 = .ok sendChain :=
  blocks_ledgerOf demoEnv_lawful sendChain (by decide) (by decide) (by decide)

theorem map_snd_liveOutputs_sublist (h : Bytes) (visited : List Transaction) (tx : Transaction) :
    ((liveOutputs h visited tx).map fun p => p.2).Sublist
      (tx.Vout.filter fun out => out.IsLockedWithKey h) := by
  have e1 : liveOutputs h visited tx =
      (tx.Vout.enum.filter fun p => p.2.IsLockedWithKey h).filter
        fun p => !referencedBy visited tx.ID p.1 := by
    rw [List.filter_filter]
    rfl
  have e2 : (tx.Vout.filter fun out => out.IsLockedWithKey h) =
      (tx.Vout.enum.filter fun p => p.2.IsLockedWithKey h).map fun p => p.2 := by
    have : (fun p : Nat × TXOutput => p.2.IsLockedWithKey h) =
        (fun out : TXOutput => out.IsLockedWithKey h) ∘ Prod.snd := rfl
    rw [this, ← List.filter_map]
    congr 1
    exact (List.enum_map_snd tx.Vout).symm
  rw [e1, e2]
  exact (List.filter_sublist _).map _

theorem collectUTXOs_copies (h : Bytes) (visited : List Transaction) (tx : Transaction)
    (hone : (tx.Vout.filter fun out => out.IsLockedWithKey h).length ≤ 1) :
    collectUTXOs h ((liveOutputs h visited tx).map fun _ => tx) =
      (liveOutputs h visited tx).map fun p => p.2 := by
  have hsub := map_snd_liveOutputs_sublist h visited tx
  have hlen := hsub.length_le
  rw [List.length_map] at hlen
  generalize liveOutputs h visited tx = L at hsub hlen
  match L, hsub, hlen with
  | [], _, _ => simp [collectUTXOs]
  | [p], hsub, hlen =>
    have h1 : (tx.Vout.filter fun out => out.IsLockedWithKey h).length = 1 := by
      simp only [List.length_singleton] at hlen
      omega
    obtain ⟨o, hF⟩ := List.length_eq_one.mp h1
    rw [hF] at hsub
    have hm : p.2 ∈ [o] := hsub.subset (by simp)
    simp only [List.mem_singleton] at hm
    simp [collectUTXOs, hF, hm]
  | _ :: _ :: _, _, hlen =>
    simp only [List.length_cons] at hlen
    omega

theorem collectUTXOs_walk (h : Bytes) (txs : List Transaction) :
    ∀ (visited : List Transaction),
      (∀ tx ∈ txs, (tx.Vout.filter fun out => out.IsLockedWithKey h).length ≤ 1) →
      collectUTXOs h ((walkUnspentOutputs h visited txs).map fun p => p.1) =
        (walkUnspentOutputs h visited txs).map fun p => p.2.2 := by
  induction txs with
  | nil => intro _ _; simp [walkUnspentOutputs, collectUTXOs]
  | cons tx rest ih =>
    intro visited hone
    have h1 := collectUTXOs_copies h visited tx (hone tx (by simp))
    have h2 := ih (visited ++ [tx]) (fun t ht => hone t (List.mem_cons_of_mem _ ht))
    simp only [collectUTXOs] at h1 h2 ⊢
    simp only [walkUnspentOutputs, List.map_append, List.map_map, List.flatMap_append]
    rw [h2]
    congr 1

/-! ## C1: what `FindUTXO` returns -/

/-- C1, as stated, fails: on the ledger holding `lateSpendChain` the walk yields the two
blocks, the output `(5, alice)` of the coinbase of the tip block is referenced by the input of the
non-coinbase transaction of the genesis block, so the unspent outputs of the chain locked
to `alice` are none, and yet `FindUTXO` returns that output: the spending input is visited
after the output it spends. -/
theorem C1_counterexample :
    (ledgerOf demoEnv lateSpendChain).blocks demoEnv 2 = .ok lateSpendChain ∧
    unspentOutputsOf alice (chainTxs lateSpendChain) = [] ∧
    (ledgerOf demoEnv lateSpendChain).FindUTXO demoEnv 2 alice = .ok [⟨5, alice⟩] := by
  refine ⟨blocks_lateSpendChain, by decide, ?_⟩
  rw [findUTXO_eq blocks_lateSpendChain]
  decide

/-- C1, amended: on every ledger whose walk yields `chain`, if no transaction of the chain
has more than one output locked to the key, `FindUTXO` returns, in walk order and each
once, exactly the outputs locked to the key that no input of a non-coinbase transaction
visited earlier in the walk references. -/
theorem C1_findUTXO_walk (E : Env) (fuel : Nat) (bc : Blockchain) (chain : List Block)
    (pubKeyHash : Bytes) (hw : bc.blocks E fuel = .ok chain)
    (hone : ∀ tx ∈ chainTxs chain,
      (tx.Vout.filter fun out => out.IsLockedWithKey pubKeyHash).length ≤ 1) :
    bc.FindUTXO E fuel pubKeyHash =
      .ok ((walkUnspentOutputs pubKeyHash [] (chainTxs chain)).map fun p => p.2.2) := by
  rw [findUTXO_eq hw, collectUTXOs_walk pubKeyHash (chainTxs chain) [] hone]

/-- C1, amended, at the ledger holding `sendChain`: the first owner is left with the
change of 40. -/
theorem C1_findUTXO_walk_witness :
    (ledgerOf demoEnv sendChain).blocks demoEnv 2 = .ok sendChain ∧
    (ledgerOf demoEnv sendChain).FindUTXO demoEnv 2 alice = .ok [⟨40, alice⟩] :=
  ⟨blocks_sendChain,
    (C1_findUTXO_walk demoEnv 2 (ledgerOf demoEnv sendChain) sendChain alice blocks_sendChain
      (by decide)).trans (by decide)⟩

/-! ## C3 and C4: balances -/

theorem getBalance_eq {E : Env} {fuel : Nat} {bc : Blockchain}
    {chain : List Block} (hw : bc.blocks E fuel = .ok chain) (h : Bytes) :
    getBalance E fuel bc h =
      .ok (goSum ((collectUTXOs h
        ((walkUnspentOutputs h [] (chainTxs chain)).map fun p => p.1)).map fun out => out.Value)) := by
  unfold getBalance
  rw [findUTXO_eq hw]

theorem blocks_selfSendChain :
    (ledgerOf demoEnv selfSendChain).blocks demoEnv 2 = .ok selfSendChain :=
  blocks_ledgerOf demoEnv_lawful selfSendChain (by decide) (by decide) (by decide)

/-- C3, the code at the failing input: on the ledger holding `selfSendChain` (a genesis
coinbase of 50 to `alice`, then one transaction spending it into the outputs 10 and 40,
both to `alice`) every output of the chain is locked to `alice`, `FindUTXO` returns each of
the two unspent outputs twice, and the balance is 100 where 50 were minted. -/
theorem C3_selfSend_balance :
    (ledgerOf demoEnv selfSendChain).blocks demoEnv 2 = .ok selfSendChain ∧
    (∀ tx ∈ chainTxs selfSendChain, ∀ out ∈ tx.Vout, out.PubKeyHash = alice) ∧
    (ledgerOf demoEnv selfSendChain).FindUTXO demoEnv 2 alice =
      .ok [⟨10, alice⟩, ⟨40, alice⟩, ⟨10, alice⟩, ⟨40, alice⟩] ∧
    getBalance demoEnv 2 (ledgerOf demoEnv selfSendChain) alice = .ok 100 := by
  refine ⟨blocks_selfSendChain, by decide, ?_, ?_⟩
  · rw [findUTXO_eq blocks_selfSendChain]
    decide
  · rw [getBalance_eq blocks_selfSendChain]
    decide

/-- C4: on every ledger whose walk yields a tip block holding one transaction over a
genesis block holding one transaction, where the genesis transaction has the single output
`(S, Alice)` with `10 < S` a Go `int`, and the tip transaction has the single input
`(genesis transaction id, 0)` (which makes it non-coinbase) and the outputs
`[(10, Bob), (S - 10, Alice)]` with `Alice ≠ Bob`, the balance loop of `getBalance`
yields `S - 10` for `Alice` and `10` for `Bob`. -/
theorem C4_send_balances (E : Env) (fuel : Nat) (bc : Blockchain) (S : Int)
    (Alice Bob : Bytes) (cb tx : Transaction) (vin : TXInput) (tipBlock genesis : Block)
    (hw : bc.blocks E fuel = .ok [tipBlock, genesis])
    (hS : 10 < S) (hS2 : S < 2 ^ 63) (hne : Alice ≠ Bob)
    (hg : genesis.Transactions = [cb]) (hcb : cb.Vout = [⟨S, Alice⟩])
    (ht : tipBlock.Transactions = [tx]) (hvin : tx.Vin = [vin])
    (hid : vin.Txid = cb.ID) (hv : vin.Vout = 0)
    (hout : tx.Vout = [⟨10, Bob⟩, ⟨S - 10, Alice⟩]) :
    getBalance E fuel bc Alice = .ok (S - 10) ∧ getBalance E fuel bc Bob = .ok 10 := by
  have htx : tx.IsCoinbase = false := by
    simp [Transaction.IsCoinbase, hvin, hv]
  have hAB : (Bob == Alice) = false := by
    simpa using fun e : Bob = Alice => hne e.symm
  have hBA : (Alice == Bob) = false := by simpa using hne
  have href : referencedBy [tx] cb.ID 0 = true := by
    simp [referencedBy, htx, hvin, hid, hv]
  have hw1 : wrapInt (S - 10) = S - 10 := wrapInt_of_range (by omega) (by omega)
  have hw2 : wrapInt 10 = 10 := by decide
  constructor
  · rw [getBalance_eq hw]
    simp [chainTxs, hg, ht, walkUnspentOutputs, liveOutputs, hout, hcb, List.enum,
      List.enumFrom, referencedBy, TXOutput.IsLockedWithKey, hAB, hBA, collectUTXOs, goSum,
      List.filter, hw1, htx, hvin, hid, hv]
  · rw [getBalance_eq hw]
    simp [chainTxs, hg, ht, walkUnspentOutputs, liveOutputs, hout, hcb, List.enum,
      List.enumFrom, referencedBy, TXOutput.IsLockedWithKey, hAB, hBA, collectUTXOs, goSum,
      List.filter, hw2, htx, hvin, hid, hv]

/-- C4 at the ledger holding `sendChain`, with `S = 50`. -/
theorem C4_send_balances_witness :
    (ledgerOf demoEnv sendChain).blocks demoEnv 2 = .ok sendChain ∧
    getBalance demoEnv 2 (ledgerOf demoEnv sendChain) alice = .ok (50 - 10) ∧
    getBalance demoEnv 2 (ledgerOf demoEnv sendChain) bob = .ok 10 :=
  ⟨blocks_sendChain,
    C4_send_balances demoEnv 2 (ledgerOf demoEnv sendChain) 50 alice bob
      ⟨[7], [⟨[], -1, [], []⟩], [⟨50, alice⟩]⟩
      ⟨[8], [⟨[7], 0, [], []⟩], [⟨10, bob⟩, ⟨40, alice⟩]⟩ ⟨[7], 0, [], []⟩
      ⟨1, [⟨[8], [⟨[7], 0, [], []⟩], [⟨10, bob⟩, ⟨40, alice⟩]⟩], hashOf 0, hashOf 1, 0⟩
      ⟨0, [⟨[7], [⟨[], -1, [], []⟩], [⟨50, alice⟩]⟩], [], hashOf 0, 0⟩
      blocks_sendChain (by decide) (by decide) (by decide) rfl rfl rfl rfl rfl rfl rfl⟩

/-! ## What `FindSpendableOutputs` computes -/

theorem spendOutputs_eq (h : Bytes) (amount : Int) (k : GoString) (outs : List TXOutput) :
    ∀ (n : Nat) (st : SpendState),
      spendOutputs h amount k n outs st =
        takeCandidates amount
          (((outs.enumFrom n).filter fun p => p.2.IsLockedWithKey h).map
            fun p => (k, p.1, p.2)) st := by
  induction outs with
  | nil => intro n st; simp [spendOutputs, takeCandidates]
  | cons out outs ih =>
    intro n st
    by_cases hl : out.IsLockedWithKey h = true
    · by_cases hg : st.accumulated < amount
      · simp only [spendOutputs, hl, hg, decide_True, Bool.and_self, if_true,
          List.enumFrom_cons, List.filter_cons, List.map_cons, takeCandidates, addOutput, ih]
      · simp only [spendOutputs, hl, hg, decide_False, Bool.and_false, Bool.false_eq_true,
          if_false, if_true, List.enumFrom_cons, List.filter_cons, List.map_cons,
          takeCandidates, ih]
    · have hl2 : out.IsLockedWithKey h = false := by simpa using hl
      simp only [spendOutputs, hl2, Bool.false_and, Bool.false_eq_true, if_false,
        List.enumFrom_cons, List.filter_cons, ih]

theorem takeCandidates_of_ge (amount : Int) (cs : List Candidate) (st : SpendState)
    (hge : ¬ st.accumulated < amount) : takeCandidates amount cs st = st := by
  induction cs with
  | nil => rfl
  | cons c cs ih => simp only [takeCandidates, hge, if_false, ih]

theorem takeCandidates_append (amount : Int) (xs ys : List Candidate) :
    ∀ (st : SpendState), st.done = false →
      takeCandidates amount (xs ++ ys) st =
        if (takeCandidates amount xs st).done then takeCandidates amount xs st
        else takeCandidates amount ys (takeCandidates amount xs st) := by
  induction xs with
  | nil => intro st hd; simp [takeCandidates, hd]
  | cons c cs ih =>
    intro st hd
    simp only [List.cons_append, takeCandidates]
    by_cases hg : st.accumulated < amount
    · simp only [hg, if_true]
      by_cases hb : wrapInt (st.accumulated + c.2.2.Value) ≥ amount
      · simp [hb]
      · simp only [hb, if_false]
        exact ih _ rfl
    · simp only [hg, if_false]
      exact ih st hd

theorem spendTransactions_eq (h : Bytes) (amount : Int) (txs : List Transaction) :
    ∀ (st : SpendState), st.done = false →
      spendTransactions h amount txs st = takeCandidates amount (candidates h txs) st := by
  induction txs with
  | nil => intro st _; simp [spendTransactions, candidates, takeCandidates]
  | cons tx rest ih =>
    intro st hd
    have hc : candidates h (tx :: rest) =
        ((tx.Vout.enum.filter fun p => p.2.IsLockedWithKey h).map
          fun p => (hexEncode tx.ID, p.1, p.2)) ++ candidates h rest := by
      simp [candidates]
    rw [hc, takeCandidates_append _ _ _ st hd]
    simp only [spendTransactions, spendOutputs_eq, List.enum]
    split
    · rfl
    · rename_i hnd
      exact ih _ (by simpa using hnd)

/-- The loops take a first part of the candidates: the accumulated value is what adding
their values gives, the map is what listing them gives, and each of them was added while
the value accumulated before it was below the amount. -/
theorem takeCandidates_spec (amount : Int) (cs : List Candidate) :
    ∀ (st : SpendState), ∃ sel rest, cs = sel ++ rest ∧
      (takeCandidates amount cs st).accumulated = accumulate st.accumulated sel ∧
      (takeCandidates amount cs st).unspentOutputs = sel.foldl addOutput st.unspentOutputs ∧
      ∀ init last, sel = init ++ [last] → accumulate st.accumulated init < amount := by
  induction cs with
  | nil =>
    intro st
    refine ⟨[], [], rfl, rfl, rfl, ?_⟩
    intro init last e
    simp at e
  | cons c cs ih =>
    intro st
    by_cases hg : st.accumulated < amount
    · by_cases hb : wrapInt (st.accumulated + c.2.2.Value) ≥ amount
      · refine ⟨[c], cs, rfl, ?_, ?_, ?_⟩
        · simp [takeCandidates, hg, hb, accumulate]
        · simp [takeCandidates, hg, hb]
        · intro init last e
          have : init = [] := by
            cases init with
            | nil => rfl
            | cons a as =>
              have := congrArg List.length e
              simp at this
          subst this
          simpa [accumulate] using hg
      · obtain ⟨sel, rest, e1, e2, e3, e4⟩ :=
          ih ⟨wrapInt (st.accumulated + c.2.2.Value), addOutput st.unspentOutputs c, false⟩
        refine ⟨c :: sel, rest, by rw [e1]; rfl, ?_, ?_, ?_⟩
        · simp only [takeCandidates, hg, hb, if_true, if_false, e2]
          rfl
        · simp only [takeCandidates, hg, hb, if_true, if_false, e3]
          rfl
        · intro init last e
          cases init with
          | nil => simpa [accumulate] using hg
          | cons a as =>
            simp only [List.cons_append, List.cons.injEq] at e
            obtain ⟨rfl, e⟩ := e
            exact e4 as last e
    · refine ⟨[], c :: cs, rfl, ?_, ?_, ?_⟩
      · rw [takeCandidates_of_ge amount _ st hg]; rfl
      · rw [takeCandidates_of_ge amount _ st hg]; rfl
      · intro init last e
        simp at e

theorem entries_addOutput (m : IndexMap) (c : Candidate) :
    (entries (addOutput m c)).Perm (entries m ++ [(c.1, (c.2.1 : Int))]) := by
  obtain ⟨k, i, o⟩ := c
  induction m with
  | nil => simp [addOutput, GoMap.put, GoMap.get, entries]
  | cons kv rest ih =>
    obtain ⟨k0, v0⟩ := kv
    by_cases hk : k0 = k
    · subst hk
      simp only [addOutput, GoMap.put, GoMap.get, if_true, entries, List.flatMap_cons,
        List.map_append, List.map_cons, List.map_nil, List.append_assoc]
      exact List.Perm.append_left _ List.perm_append_comm
    · simp only [addOutput, GoMap.put, GoMap.get, hk, if_false, entries, List.flatMap_cons,
        List.append_assoc]
      exact List.Perm.append_left _ ih

theorem entries_foldl_addOutput (sel : List Candidate) :
    ∀ (m : IndexMap), (entries (sel.foldl addOutput m)).Perm
      (entries m ++ sel.map fun c => (c.1, (c.2.1 : Int))) := by
  induction sel with
  | nil => intro m; simp
  | cons c cs ih =>
    intro m
    simp only [List.foldl_cons, List.map_cons]
    refine (ih (addOutput m c)).trans ?_
    have := (entries_addOutput m c).append_right (cs.map fun c => (c.1, (c.2.1 : Int)))
    simpa using this

theorem accumulate_eq (cs : List Candidate) (s : Int) :
    accumulate (wrapInt s) cs = wrapInt (s + (cs.map fun c => c.2.2.Value).sum) := by
  have := foldl_wrapInt (cs.map fun c => c.2.2.Value) s
  rw [← this, accumulate, List.foldl_map]


/-- The result of `FindSpendableOutputs` on a ledger whose walk yields `chain`: a first part
`sel` of the candidates of the unspent transactions was added. -/
theorem findSpendableOutputs_spec {E : Env} {fuel : Nat} {bc : Blockchain}
    {chain : List Block} (hw : bc.blocks E fuel = .ok chain) (h : Bytes) (amount : Int) :
    ∃ acc m sel rest,
      bc.FindSpendableOutputs E fuel h amount = .ok (acc, m) ∧
      candidates h ((walkUnspentOutputs h [] (chainTxs chain)).map fun p => p.1) = sel ++ rest ∧
      acc = accumulate 0 sel ∧
      (entries m).Perm (sel.map fun c => (c.1, (c.2.1 : Int))) ∧
      ∀ init last, sel = init ++ [last] → accumulate 0 init < amount := by
  obtain ⟨sel, rest, e1, e2, e3, e4⟩ := takeCandidates_spec amount
    (candidates h ((walkUnspentOutputs h [] (chainTxs chain)).map fun p => p.1)) ⟨0, [], false⟩
  have hres : bc.FindSpendableOutputs E fuel h amount =
      .ok ((takeCandidates amount
          (candidates h ((walkUnspentOutputs h [] (chainTxs chain)).map fun p => p.1))
          ⟨0, [], false⟩).accumulated,
        (takeCandidates amount
          (candidates h ((walkUnspentOutputs h [] (chainTxs chain)).map fun p => p.1))
          ⟨0, [], false⟩).unspentOutputs) := by
    unfold Blockchain.FindSpendableOutputs
    rw [findUnspentTransactions_eq hw]
    simp only
    rw [spendTransactions_eq h amount _ ⟨0, [], false⟩ rfl]
  refine ⟨_, _, sel, rest, hres, e1, e2, ?_, e4⟩
  rw [e3]
  simpa [entries] using entries_foldl_addOutput sel []

theorem filter_enum_locked (h : Bytes) (outs : List TXOutput) :
    ((outs.enum.filter fun p => p.2.IsLockedWithKey h).map fun p => p.2) =
      outs.filter fun out => out.IsLockedWithKey h := by
  have : (fun p : Nat × TXOutput => p.2.IsLockedWithKey h) =
      (fun out : TXOutput => out.IsLockedWithKey h) ∘ Prod.snd := rfl
  rw [this, ← List.filter_map]
  congr 1
  exact List.enum_map_snd outs

theorem mem_candidates {h : Bytes} {txs : List Transaction} {c : Candidate}
    (hc : c ∈ candidates h txs) :
    ∃ tx ∈ txs, c.1 = hexEncode tx.ID ∧ tx.Vout[c.2.1]? = some c.2.2 ∧
      c.2.2.IsLockedWithKey h = true ∧
      (c.2.1, c.2.2) ∈ tx.Vout.enum.filter fun p => p.2.IsLockedWithKey h := by
  simp only [candidates, List.mem_flatMap, List.mem_map] at hc
  obtain ⟨tx, htx, p, hp, rfl⟩ := hc
  have hp2 := List.mem_filter.mp hp
  refine ⟨tx, htx, rfl, ?_, hp2.2, hp⟩
  exact List.mem_enum_iff_getElem?.mp hp2.1

theorem find?_of_nodup_ids {txs : List Transaction} (hids : (txs.map fun tx => tx.ID).Nodup)
    {tx : Transaction} (htx : tx ∈ txs) :
    txs.find? (fun t => hexEncode t.ID == hexEncode tx.ID) = some tx := by
  induction txs with
  | nil => simp at htx
  | cons t rest ih =>
    simp only [List.map_cons, List.nodup_cons, List.mem_map, not_exists, not_and] at hids
    rcases List.mem_cons.mp htx with rfl | hr
    · simp
    · have hne : ¬ t.ID = tx.ID := fun e => hids.1 tx hr e.symm
      have hne2 : (hexEncode t.ID == hexEncode tx.ID) = false := by
        simpa [hexEncode_eq_iff] using hne
      simp only [List.find?_cons, hne2]
      exact ih hids.2 hr

theorem mem_walkUnspentOutputs {h : Bytes} {txs : List Transaction} :
    ∀ {visited : List Transaction} {p : Transaction × Nat × TXOutput},
      p ∈ walkUnspentOutputs h visited txs →
      ∃ pre post, txs = pre ++ p.1 :: post ∧ (p.2.1, p.2.2) ∈ liveOutputs h (visited ++ pre) p.1 := by
  induction txs with
  | nil => intro visited p hp; simp [walkUnspentOutputs] at hp
  | cons tx rest ih =>
    intro visited p hp
    simp only [walkUnspentOutputs, List.mem_append, List.mem_map] at hp
    rcases hp with ⟨q, hq, rfl⟩ | hp
    · exact ⟨[], rest, rfl, by simpa using hq⟩
    · obtain ⟨pre, post, e, hm⟩ := ih hp
      refine ⟨tx :: pre, post, by rw [e]; rfl, ?_⟩
      simpa using hm

theorem walk_copies_subset {h : Bytes} {txs : List Transaction} {tx : Transaction}
    (htx : tx ∈ (walkUnspentOutputs h [] txs).map fun p => p.1) : tx ∈ txs := by
  obtain ⟨p, hp, rfl⟩ := List.mem_map.mp htx
  obtain ⟨pre, post, e, _⟩ := mem_walkUnspentOutputs hp
  rw [e]
  simp

theorem valueAt_candidate {h : Bytes} {txs : List Transaction}
    (hids : (txs.map fun tx => tx.ID).Nodup) {c : Candidate}
    (hc : c ∈ candidates h ((walkUnspentOutputs h [] txs).map fun p => p.1)) :
    valueAt txs (c.1, (c.2.1 : Int)) = c.2.2.Value := by
  obtain ⟨tx, htx, hk, hget, _, _⟩ := mem_candidates hc
  have hfind := find?_of_nodup_ids hids (walk_copies_subset htx)
  have hidx : indexInt tx.Vout (c.2.1 : Int) = some c.2.2 := by
    simp [indexInt, hget]
  simp only [valueAt, hk, hfind, hidx]

/-! ## C5 and C6: `FindSpendableOutputs` -/

theorem flatMap_sublist_map {α β : Type} (l : List α) (f : α → List β) (g : α → β)
    (hf : ∀ x ∈ l, f x = [] ∨ f x = [g x]) : (l.flatMap f).Sublist (l.map g) := by
  induction l with
  | nil => simp
  | cons a l ih =>
    have hl := ih (fun x hx => hf x (List.mem_cons_of_mem _ hx))
    simp only [List.flatMap_cons, List.map_cons]
    rcases hf a (by simp) with e | e
    · rw [e]
      exact (List.Sublist.cons _ hl)
    · rw [e]
      exact List.Sublist.cons₂ _ hl

theorem const_map_le_one {γ β : Type} {l : List γ} (hl : l.length ≤ 1) (b : β) :
    l.map (fun _ => b) = [] ∨ l.map (fun _ => b) = [b] := by
  match l, hl with
  | [], _ => exact Or.inl rfl
  | [_], _ => exact Or.inr rfl
  | _ :: _ :: _, hl => simp at hl

theorem liveOutputs_length_le (h : Bytes) (visited : List Transaction) (tx : Transaction) :
    (liveOutputs h visited tx).length ≤
      (tx.Vout.filter fun out => out.IsLockedWithKey h).length := by
  have := (map_snd_liveOutputs_sublist h visited tx).length_le
  simpa using this

theorem walk_copies_sublist (h : Bytes) (txs : List Transaction) :
    ∀ (visited : List Transaction),
      (∀ tx ∈ txs, (tx.Vout.filter fun out => out.IsLockedWithKey h).length ≤ 1) →
      ((walkUnspentOutputs h visited txs).map fun p => p.1).Sublist txs := by
  induction txs with
  | nil => intro _ _; simp [walkUnspentOutputs]
  | cons tx rest ih =>
    intro visited hone
    have h1 : (liveOutputs h visited tx).length ≤ 1 :=
      le_trans (liveOutputs_length_le h visited tx) (hone tx (by simp))
    have h2 := ih (visited ++ [tx]) (fun t ht => hone t (List.mem_cons_of_mem _ ht))
    simp only [walkUnspentOutputs, List.map_append, List.map_map]
    rcases const_map_le_one h1 tx with e | e
    · have e2 : List.map ((fun p => p.1) ∘ fun p => (tx, p.1, p.2)) (liveOutputs h visited tx)
          = [] := e
      rw [e2]
      exact List.Sublist.cons _ h2
    · have e2 : List.map ((fun p => p.1) ∘ fun p => (tx, p.1, p.2)) (liveOutputs h visited tx)
          = [tx] := e
      rw [e2]
      exact List.Sublist.cons₂ _ h2

theorem candidates_keys_nodup (h : Bytes) (txs : List Transaction)
    (hids : (txs.map fun tx => tx.ID).Nodup)
    (hone : ∀ tx ∈ txs, (tx.Vout.filter fun out => out.IsLockedWithKey h).length ≤ 1) :
    ((candidates h txs).map fun c => c.1).Nodup := by
  have hkeys : ((candidates h txs).map fun c => c.1) =
      txs.flatMap fun tx =>
        (tx.Vout.enum.filter fun p => p.2.IsLockedWithKey h).map fun _ => hexEncode tx.ID := by
    simp [candidates, List.map_flatMap]
  rw [hkeys]
  have hsub := flatMap_sublist_map txs
    (fun tx => (tx.Vout.enum.filter fun p => p.2.IsLockedWithKey h).map
      fun _ => hexEncode tx.ID) (fun tx => hexEncode tx.ID) (by
      intro tx htx
      apply const_map_le_one
      have := congrArg List.length (filter_enum_locked h tx.Vout)
      rw [List.length_map] at this
      rw [this]
      exact hone tx htx)
  refine hsub.nodup ?_
  have := hids.map (f := hexEncode) (fun a b e => hexEncode_inj e)
  simpa [List.map_map] using this

theorem eq_of_mem_length_le_one {γ : Type} {l : List γ} (hl : l.length ≤ 1) {a b : γ}
    (ha : a ∈ l) (hb : b ∈ l) : a = b := by
  match l, hl with
  | [], _ => simp at ha
  | [x], _ =>
    simp only [List.mem_singleton] at ha hb
    rw [ha, hb]
  | _ :: _ :: _, hl => simp at hl

theorem blocks_replayChain :
    (ledgerOf demoEnv replayChain).blocks demoEnv 3 = .ok replayChain :=
  blocks_ledgerOf demoEnv_lawful replayChain (by decide) (by decide) (by decide)

theorem findSpendableOutputs_eq {E : Env} {fuel : Nat} {bc : Blockchain}
    {chain : List Block} (hw : bc.blocks E fuel = .ok chain) (h : Bytes) (amount : Int) :
    bc.FindSpendableOutputs E fuel h amount =
      .ok ((spendTransactions h amount
          ((walkUnspentOutputs h [] (chainTxs chain)).map fun p => p.1) ⟨0, [], false⟩).accumulated,
        (spendTransactions h amount
          ((walkUnspentOutputs h [] (chainTxs chain)).map fun p => p.1)
          ⟨0, [], false⟩).unspentOutputs) := by
  unfold Blockchain.FindSpendableOutputs
  rw [findUnspentTransactions_eq hw]

/-- C5, as stated, fails. On the ledger holding `lateSpendChain`, `FindSpendableOutputs`
lists output 0 of the transaction `[7]`, which the input of the non-coinbase transaction of
the genesis block references. On the ledger holding `replayChain`, where two transactions
carry the id `[8]`, it lists the pair (`[8]`, 0) twice. -/
theorem C5_counterexample :
    ((ledgerOf demoEnv lateSpendChain).blocks demoEnv 2 = .ok lateSpendChain ∧
      (ledgerOf demoEnv lateSpendChain).FindSpendableOutputs demoEnv 2 alice 5 =
        .ok (5, [(hexEncode [7], [0])]) ∧
      referencedBy (chainTxs lateSpendChain) [7] 0 = true) ∧
    ((ledgerOf demoEnv replayChain).blocks demoEnv 3 = .ok replayChain ∧
      (ledgerOf demoEnv replayChain).FindSpendableOutputs demoEnv 3 bob 15 =
        .ok (20, [(hexEncode [8], [0, 0])])) := by
  refine ⟨⟨blocks_lateSpendChain, ?_, by decide⟩, blocks_replayChain, ?_⟩
  · rw [findSpendableOutputs_eq blocks_lateSpendChain]
    decide
  · rw [findSpendableOutputs_eq blocks_replayChain]
    decide

/-- C5, amended: on every ledger whose walk yields a chain with distinct transaction ids in
which no transaction has more than one output locked to the key, every pair
(hex transaction id, output index) listed in the map `FindSpendableOutputs` returns denotes
an output of a transaction of the chain that is locked to the key and that no input of a
non-coinbase transaction visited earlier in the walk references, and no pair is listed
more than once. -/
theorem C5_spendable_walk (E : Env) (fuel : Nat) (bc : Blockchain) (chain : List Block)
    (pubKeyHash : Bytes) (amount : Int) (hw : bc.blocks E fuel = .ok chain)
    (hids : ((chainTxs chain).map fun tx => tx.ID).Nodup)
    (hone : ∀ tx ∈ chainTxs chain,
      (tx.Vout.filter fun out => out.IsLockedWithKey pubKeyHash).length ≤ 1) :
    ∃ acc m, bc.FindSpendableOutputs E fuel pubKeyHash amount = .ok (acc, m) ∧
      (∀ k i, (k, i) ∈ entries m →
        ∃ (pre : List Transaction) (tx : Transaction) (post : List Transaction) (idx : Nat)
            (out : TXOutput), chainTxs chain = pre ++ tx :: post ∧ k = hexEncode tx.ID ∧
          i = (idx : Int) ∧ tx.Vout[idx]? = some out ∧
          out.IsLockedWithKey pubKeyHash = true ∧ referencedBy pre tx.ID idx = false) ∧
      (entries m).Nodup := by
  obtain ⟨acc, m, sel, rest, hres, hsplit, _, hperm, _⟩ :=
    findSpendableOutputs_spec hw pubKeyHash amount
  refine ⟨acc, m, hres, ?_, ?_⟩
  · intro k i hki
    have hmem := hperm.subset hki
    obtain ⟨c, hc, hpair⟩ := List.mem_map.mp hmem
    have hc2 : c ∈ candidates pubKeyHash
        ((walkUnspentOutputs pubKeyHash [] (chainTxs chain)).map fun p => p.1) := by
      rw [hsplit]
      exact List.mem_append_left _ hc
    obtain ⟨tx, htx, hk, hget, hlock, hfil⟩ := mem_candidates hc2
    obtain ⟨p, hp, rfl⟩ := List.mem_map.mp htx
    obtain ⟨pre, post, e, hlive⟩ := mem_walkUnspentOutputs hp
    have hin : p.1 ∈ chainTxs chain := by rw [e]; simp
    have hle : (p.1.Vout.enum.filter fun q => q.2.IsLockedWithKey pubKeyHash).length ≤ 1 := by
      have := congrArg List.length (filter_enum_locked pubKeyHash p.1.Vout)
      rw [List.length_map] at this
      rw [this]
      exact hone p.1 hin
    have hlive2 : (p.2.1, p.2.2) ∈
        p.1.Vout.enum.filter fun q => q.2.IsLockedWithKey pubKeyHash := by
      have hl := List.mem_filter.mp hlive
      have hl2 := hl.2
      simp only [Bool.and_eq_true] at hl2
      exact List.mem_filter.mpr ⟨hl.1, hl2.2⟩
    have heq := eq_of_mem_length_le_one hle hfil hlive2
    have href : referencedBy pre p.1.ID c.2.1 = false := by
      have := (List.mem_filter.mp hlive).2
      simp only [List.nil_append, Bool.and_eq_true, Bool.not_eq_true'] at this
      rw [congrArg Prod.fst heq]
      exact this.1
    simp only [Prod.mk.injEq] at hpair
    exact ⟨pre, p.1, post, c.2.1, c.2.2, e, by rw [← hpair.1, hk], hpair.2.symm, hget, hlock,
      href⟩
  · refine hperm.nodup_iff.mpr ?_
    have hsub : (sel.map fun c : Candidate => (c.1, (c.2.1 : Int))).Sublist
        ((candidates pubKeyHash
          ((walkUnspentOutputs pubKeyHash [] (chainTxs chain)).map fun p => p.1)).map
            fun c => (c.1, (c.2.1 : Int))) := by
      rw [hsplit]
      exact (List.sublist_append_left sel rest).map _
    refine hsub.nodup ?_
    have hcs := walk_copies_sublist pubKeyHash (chainTxs chain) [] hone
    have hk := candidates_keys_nodup pubKeyHash
      ((walkUnspentOutputs pubKeyHash [] (chainTxs chain)).map fun p => p.1)
      ((hcs.map _).nodup hids) (fun tx htx => hone tx (hcs.subset htx))
    apply List.Nodup.of_map Prod.fst
    simpa [List.map_map] using hk

/-- C5, amended, at the ledger holding `sendChain`, for the first owner and the amount 30:
the change output is the one listed. -/
theorem C5_spendable_walk_witness :
    (ledgerOf demoEnv sendChain).blocks demoEnv 2 = .ok sendChain ∧
    ∃ acc m, (ledgerOf demoEnv sendChain).FindSpendableOutputs demoEnv 2 alice 30 =
        .ok (acc, m) ∧
      (∀ k i, (k, i) ∈ entries m →
        ∃ (pre : List Transaction) (tx : Transaction) (post : List Transaction) (idx : Nat)
            (out : TXOutput), chainTxs sendChain = pre ++ tx :: post ∧ k = hexEncode tx.ID ∧
          i = (idx : Int) ∧ tx.Vout[idx]? = some out ∧
          out.IsLockedWithKey alice = true ∧ referencedBy pre tx.ID idx = false) ∧
      (entries m).Nodup :=
  ⟨blocks_sendChain,
    C5_spendable_walk demoEnv 2 (ledgerOf demoEnv sendChain) sendChain alice 30
      blocks_sendChain (by decide) (by decide)⟩

/-- C6: on every ledger whose walk yields a chain with distinct transaction ids, the outputs
`FindSpendableOutputs` adds are a first part `sel` of the outputs locked to the key in the
unspent transactions, in the order scanned, and the map lists exactly them; the
accumulated value it returns is the Go `int` sum of the `Value`s of the outputs listed in
the map; and accumulation stops as soon as the amount is reached: the value accumulated
before the last output added is below the amount. (The last part needs neither a positive
amount nor non-negative values.) -/
theorem C6_spendable_accumulated (E : Env) (fuel : Nat) (bc : Blockchain)
    (chain : List Block) (pubKeyHash : Bytes) (amount : Int)
    (hw : bc.blocks E fuel = .ok chain)
    (hids : ((chainTxs chain).map fun tx => tx.ID).Nodup) :
    ∃ unspentTXs acc m sel rest,
      bc.FindUnspentTransactions E fuel pubKeyHash = .ok unspentTXs ∧
      bc.FindSpendableOutputs E fuel pubKeyHash amount = .ok (acc, m) ∧
      candidates pubKeyHash unspentTXs = sel ++ rest ∧
      (entries m).Perm (sel.map fun c => (c.1, (c.2.1 : Int))) ∧
      acc = wrapInt ((entries m).map (valueAt (chainTxs chain))).sum ∧
      ∀ init last, sel = init ++ [last] →
        wrapInt (init.map fun c => c.2.2.Value).sum < amount ∧
        acc = wrapInt (wrapInt (init.map fun c => c.2.2.Value).sum + last.2.2.Value) := by
  obtain ⟨acc, m, sel, rest, hres, hsplit, hacc, hperm, hguard⟩ :=
    findSpendableOutputs_spec hw pubKeyHash amount
  have hw0 : wrapInt 0 = 0 := by decide
  have hacc0 : ∀ cs : List Candidate,
      accumulate 0 cs = wrapInt (cs.map fun c => c.2.2.Value).sum := by
    intro cs
    have := accumulate_eq cs 0
    rw [hw0] at this
    simpa using this
  refine ⟨_, acc, m, sel, rest, findUnspentTransactions_eq hw pubKeyHash, hres, hsplit, hperm,
    ?_, ?_⟩
  · have hsum : ((entries m).map (valueAt (chainTxs chain))).sum =
        (sel.map fun c => c.2.2.Value).sum := by
      rw [(hperm.map (valueAt (chainTxs chain))).sum_eq, List.map_map]
      congr 1
      apply List.map_congr_left
      intro c hc
      have hc2 : c ∈ candidates pubKeyHash
          ((walkUnspentOutputs pubKeyHash [] (chainTxs chain)).map fun p => p.1) := by
        rw [hsplit]
        exact List.mem_append_left _ hc
      exact valueAt_candidate hids hc2
    rw [hsum, hacc, hacc0]
  · intro init last e
    have h1 := hguard init last e
    rw [hacc0] at h1
    refine ⟨h1, ?_⟩
    rw [hacc, e, ← hacc0 init]
    simp [accumulate, List.foldl_append]

/-- C6 at the ledger holding `sendChain`, for the first owner and the amount 30. -/
theorem C6_spendable_accumulated_witness :
    (ledgerOf demoEnv sendChain).blocks demoEnv 2 = .ok sendChain ∧
    ∃ unspentTXs acc m sel rest,
      (ledgerOf demoEnv sendChain).FindUnspentTransactions demoEnv 2 alice = .ok unspentTXs ∧
      (ledgerOf demoEnv sendChain).FindSpendableOutputs demoEnv 2 alice 30 = .ok (acc, m) ∧
      candidates alice unspentTXs = sel ++ rest ∧
      (entries m).Perm (sel.map fun c => (c.1, (c.2.1 : Int))) ∧
      acc = wrapInt ((entries m).map (valueAt (chainTxs sendChain))).sum ∧
      ∀ init last, sel = init ++ [last] →
        wrapInt (init.map fun c => c.2.2.Value).sum < 30 ∧
        acc = wrapInt (wrapInt (init.map fun c => c.2.2.Value).sum + last.2.2.Value) :=
  ⟨blocks_sendChain,
    C6_spendable_accumulated demoEnv 2 (ledgerOf demoEnv sendChain) sendChain alice 30
      blocks_sendChain (by decide)⟩

/-! ## C10: `FindTransaction` -/

theorem findTransaction_eq {E : Env} {fuel : Nat} {bc : Blockchain} {chain : List Block}
    (hw : bc.blocks E fuel = .ok chain) (id : Bytes) :
    bc.FindTransaction E fuel id =
      .ok (match (chainTxs chain).find? (fun tx => tx.ID == id) with
        | some tx => (tx, none)
        | none => (Transaction.zero, some errNotFound)) :=
  findTransaction_loop_of_blocks id hw

theorem find?_split {txs : List Transaction} {tx : Transaction} {id : Bytes}
    (hf : txs.find? (fun t => t.ID == id) = some tx) :
    ∃ pre post, txs = pre ++ tx :: post ∧ ∀ t ∈ pre, t.ID ≠ id := by
  induction txs with
  | nil => simp at hf
  | cons p rest ih =>
    by_cases hp : p.ID = id
    · have hp2 : (p.ID == id) = true := by simpa using hp
      simp only [List.find?_cons, hp2, Option.some.injEq] at hf
      subst hf
      exact ⟨[], rest, rfl, by simp⟩
    · have hp2 : (p.ID == id) = false := by simpa using hp
      simp only [List.find?_cons, hp2] at hf
      obtain ⟨pre, post, e, hpre⟩ := ih hf
      refine ⟨p :: pre, post, by rw [e]; rfl, ?_⟩
      intro t ht
      rcases List.mem_cons.mp ht with rfl | ht2
      · exact hp
      · exact hpre t ht2

/-- C10: on every ledger whose walk yields `chain`, and for every id: if a transaction of
the chain has that `ID`, `FindTransaction` returns with a `nil` error the first one in walk
order (tip to genesis, block order) that has it; and it returns the not-found error, with
the zero transaction, exactly when no transaction of the chain has that `ID`. -/
theorem C10_findTransaction (E : Env) (fuel : Nat) (bc : Blockchain) (chain : List Block)
    (id : Bytes) (hw : bc.blocks E fuel = .ok chain) :
    ((∃ t ∈ chainTxs chain, t.ID = id) →
      ∃ pre tx post, chainTxs chain = pre ++ tx :: post ∧ tx.ID = id ∧
        (∀ t ∈ pre, t.ID ≠ id) ∧ bc.FindTransaction E fuel id = .ok (tx, none)) ∧
    ((∃ tx err, bc.FindTransaction E fuel id = .ok (tx, some err)) ↔
      ¬ ∃ t ∈ chainTxs chain, t.ID = id) ∧
    ((¬ ∃ t ∈ chainTxs chain, t.ID = id) →
      bc.FindTransaction E fuel id = .ok (Transaction.zero, some errNotFound)) := by
  have hres := findTransaction_eq hw id
  cases hf : (chainTxs chain).find? (fun tx => tx.ID == id) with
  | none =>
    rw [hf] at hres
    have hnone : ¬ ∃ t ∈ chainTxs chain, t.ID = id := by
      rintro ⟨t, ht, e⟩
      have := List.find?_eq_none.mp hf t ht
      simp [e] at this
    refine ⟨fun h => absurd h hnone, ⟨fun _ => hnone, fun _ => ⟨_, _, hres⟩⟩, fun _ => hres⟩
  | some tx =>
    rw [hf] at hres
    have hid : tx.ID = id := by
      have := List.find?_some hf
      simpa using this
    have hmem : tx ∈ chainTxs chain := List.mem_of_find?_eq_some hf
    refine ⟨fun _ => ?_, ⟨?_, fun hn => absurd ⟨tx, hmem, hid⟩ hn⟩, fun hn => absurd ⟨tx, hmem, hid⟩ hn⟩
    · obtain ⟨pre, post, hsplit, hpre⟩ := find?_split hf
      exact ⟨pre, tx, post, hsplit, hid, hpre, hres⟩
    · rintro ⟨tx2, err, h2⟩
      rw [hres] at h2
      cases h2

/-- C10 at the ledger holding `sendChain`: the id `[7]` is found in the genesis block and
the id `[9]` is not found. -/
theorem C10_findTransaction_witness :
    (ledgerOf demoEnv sendChain).blocks demoEnv 2 = .ok sendChain ∧
    (∃ pre tx post, chainTxs sendChain = pre ++ tx :: post ∧ tx.ID = [7] ∧
        (∀ t ∈ pre, t.ID ≠ [7]) ∧
        (ledgerOf demoEnv sendChain).FindTransaction demoEnv 2 [7] = .ok (tx, none)) ∧
    (ledgerOf demoEnv sendChain).FindTransaction demoEnv 2 [9] =
      .ok (Transaction.zero, some errNotFound) :=
  ⟨blocks_sendChain,
    (C10_findTransaction demoEnv 2 (ledgerOf demoEnv sendChain) sendChain [7]
      blocks_sendChain).1 (by decide),
    (C10_findTransaction demoEnv 2 (ledgerOf demoEnv sendChain) sendChain [9]
      blocks_sendChain).2.2 (by decide)⟩

/-! ## Verification and mining -/

theorem collectPrevTXs_eq {E : Env} {fuel : Nat} {bc : Blockchain} {chain : List Block}
    (hw : bc.blocks E fuel = .ok chain) (vins : List TXInput) :
    ∀ (m : GoMap GoString Transaction),
      bc.collectPrevTXs E fuel vins m = .ok (prevTXsOf (chainTxs chain) vins m) := by
  induction vins with
  | nil => intro m; rfl
  | cons vin rest ih =>
    intro m
    simp only [Blockchain.collectPrevTXs, findTransaction_eq hw, prevTXsOf]
    cases hf : (chainTxs chain).find? (fun tx => tx.ID == vin.Txid) with
    | none => simp only [Option.getD_none]; exact ih _
    | some tx => simp only [Option.getD_some]; exact ih _

theorem verifyTransaction_eq {E : Env} {fuel : Nat} {bc : Blockchain} {chain : List Block}
    (hw : bc.blocks E fuel = .ok chain) (tx : Transaction) :
    bc.VerifyTransaction E fuel tx =
      .ok (tx.Verify E (prevTXsOf (chainTxs chain) tx.Vin [])) := by
  unfold Blockchain.VerifyTransaction
  rw [collectPrevTXs_eq hw]

theorem verifyAll_invalid {E : Env} {fuel : Nat} {bc : Blockchain} :
    ∀ (txs : List Transaction),
      (∀ tx ∈ txs, ∃ ok, bc.VerifyTransaction E fuel tx = .ok ok) →
      (∃ tx ∈ txs, bc.VerifyTransaction E fuel tx = .ok false) →
      bc.verifyAll E fuel txs = .error .invalidTransaction := by
  intro txs
  induction txs with
  | nil => intro _ hbad; obtain ⟨tx, htx, _⟩ := hbad; simp at htx
  | cons t rest ih =>
    intro hall hbad
    obtain ⟨ok, hok⟩ := hall t (by simp)
    simp only [Blockchain.verifyAll, hok]
    cases ok with
    | false => simp
    | true =>
      simp only [bne_self_eq_false, Bool.false_eq_true, if_false]
      apply ih (fun tx htx => hall tx (List.mem_cons_of_mem _ htx))
      obtain ⟨tx, htx, hf⟩ := hbad
      rcases List.mem_cons.mp htx with rfl | hr
      · rw [hok] at hf
        cases hf
      · exact ⟨tx, hr, hf⟩

/-! ## C7: a batch with an invalid transaction -/

/-- C7: for every ledger state and every list of transactions whose verifications all
return a verdict, if `VerifyTransaction` returns `false` for at least one of them,
`MineBlock` ends in the panic `ERROR: Invalid transaction` and leaves the ledger handle,
that is the store with every block entry and the tip key, and the handle's tip, as they
were. -/
theorem C7_mineBlock_invalid (E : Env) (fuel : Nat) (bc : Blockchain)
    (transactions : List Transaction) (now : Int)
    (hall : ∀ tx ∈ transactions, ∃ ok, bc.VerifyTransaction E fuel tx = .ok ok)
    (hbad : ∃ tx ∈ transactions, bc.VerifyTransaction E fuel tx = .ok false) :
    bc.MineBlock E fuel transactions now = (some .invalidTransaction, bc) := by
  unfold Blockchain.MineBlock
  rw [verifyAll_invalid transactions hall hbad]

theorem verify_strayTx_sendChain :
    (ledgerOf demoEnv sendChain).VerifyTransaction demoEnv 2 strayTx = .ok false := by
  rw [verifyTransaction_eq blocks_sendChain]
  decide

/-- C7 at the ledger holding `sendChain` and the batch of the one transaction `strayTx`,
whose input references no transaction of the chain. -/
theorem C7_mineBlock_invalid_witness :
    (ledgerOf demoEnv sendChain).VerifyTransaction demoEnv 2 strayTx = .ok false ∧
    (ledgerOf demoEnv sendChain).MineBlock demoEnv 2 [strayTx] 9 =
      (some .invalidTransaction, ledgerOf demoEnv sendChain) :=
  ⟨verify_strayTx_sendChain,
    C7_mineBlock_invalid demoEnv 2 (ledgerOf demoEnv sendChain) [strayTx] 9
      (fun tx htx => ⟨false, by
        rw [List.mem_singleton.mp htx]
        exact verify_strayTx_sendChain⟩)
      ⟨strayTx, by simp, verify_strayTx_sendChain⟩⟩

/-! ## The invariant of the store -/

theorem tipKey_ne_of_length {hash : Bytes} (h : hash.length = 32) : ¬ tipKey = hash := by
  intro e
  rw [← e] at h
  simp [tipKey] at h

theorem ne_nil_of_length {hash : Bytes} (h : hash.length = 32) : hash ≠ [] := by
  intro e
  rw [e] at h
  simp at h

theorem mineBlock_ok_iff {E : Env} {fuel : Nat} {bc bc2 : Blockchain}
    {txs : List Transaction} {now : Int} (hm : bc.MineBlock E fuel txs now = (none, bc2)) :
    bc.verifyAll E fuel txs = .ok () ∧ ∃ bucket, bc.db.blocks = some bucket ∧
      bc2 = ⟨(bc.minedBlock E txs now).Hash,
        ⟨some ((bucket.put (bc.minedBlock E txs now).Hash
          (E.Serialize (bc.minedBlock E txs now))).put tipKey (bc.minedBlock E txs now).Hash)⟩⟩ := by
  unfold Blockchain.MineBlock at hm
  split at hm
  · simp at hm
  · rename_i hv
    refine ⟨hv, ?_⟩
    split at hm
    · simp at hm
    · rename_i b hb
      refine ⟨b, hb, ?_⟩
      simp only [Prod.mk.injEq, true_and] at hm
      rw [← hm]
      simp [Blockchain.minedBlock, Blockchain.lastHash, hb]

theorem genesis_inv {E : Env} (hE : E.Lawful) (address : GoString) (now : Int) (db : DB)
    (hdb : db.blocks = none) :
    LedgerInv E (NewBlockchain E address now db) [genesisOf E address now] := by
  have hlen : (genesisOf E address now).Hash.length = 32 := hE.newBlock_hash _ _ _
  refine ⟨genesisOf E address now, [],
    GoMap.put (GoMap.put ([] : Bucket) (genesisOf E address now).Hash
      (E.Serialize (genesisOf E address now))) tipKey (genesisOf E address now).Hash,
    rfl, ?_, ?_, ?_, ?_, ?_, ?_⟩
  · simp [NewBlockchain, hdb, genesisOf]
  · simp [NewBlockchain, hdb, genesisOf]
  · simp [GoMap.find_put]
  · intro blk hb
    rw [List.mem_singleton.mp hb]
    simp [GoMap.find_put, tipKey_ne_of_length hlen]
  · exact hE.newBlock_prev _ _ _
  · intro blk hb
    rw [List.mem_singleton.mp hb]
    exact hlen

theorem lastHash_of_inv {E : Env} {bc : Blockchain} {head : Block} {older : List Block}
    (hinv : LedgerInv E bc (head :: older)) : bc.lastHash = head.Hash := by
  obtain ⟨hd, old, bucket, e, _, hb, htip, _⟩ := hinv
  simp only [List.cons.injEq] at e
  simp [Blockchain.lastHash, hb, htip, e.1]

theorem mineBlock_inv {E : Env} (hE : E.Lawful) {fuel : Nat} {bc bc2 : Blockchain}
    {built : List Block} (hinv : LedgerInv E bc built) {txs : List Transaction} {now : Int}
    (hm : bc.MineBlock E fuel txs now = (none, bc2))
    (hfresh : ∀ blk ∈ built, blk.Hash ≠ (bc.minedBlock E txs now).Hash) :
    LedgerInv E bc2 (bc.minedBlock E txs now :: built) := by
  obtain ⟨_, bucket2, hb2, rfl⟩ := mineBlock_ok_iff hm
  have hinv0 := hinv
  obtain ⟨head, older, bucket, rfl, htip, hb, hl, hs, hlink, hlen⟩ := hinv
  have hlast : bc.lastHash = head.Hash := lastHash_of_inv hinv0
  rw [hb] at hb2
  cases hb2
  have hnlen : (bc.minedBlock E txs now).Hash.length = 32 := hE.newBlock_hash _ _ _
  have hprev : (bc.minedBlock E txs now).PrevBlockHash = head.Hash := by
    rw [← hlast]
    exact hE.newBlock_prev _ _ _
  refine ⟨bc.minedBlock E txs now, head :: older, _, rfl, rfl, rfl, ?_, ?_, ?_, ?_⟩
  · simp [GoMap.find_put]
  · intro blk hblk
    rcases List.mem_cons.mp hblk with rfl | hold
    · simp [GoMap.find_put, tipKey_ne_of_length hnlen]
    · have h1 : ¬ tipKey = blk.Hash := tipKey_ne_of_length (hlen blk hold)
      have h2 : ¬ (bc.minedBlock E txs now).Hash = blk.Hash := fun e => hfresh blk hold e.symm
      rw [GoMap.find_put, if_neg h1, GoMap.find_put, if_neg h2]
      exact hs blk hold
  · exact ⟨hprev, ne_nil_of_length (hlen head (by simp)), hlink⟩
  · intro blk hblk
    rcases List.mem_cons.mp hblk with rfl | hold
    · exact hnlen
    · exact hlen blk hold

theorem mineAll_extends {E : Env} {fuel : Nat} :
    ∀ (batches : List (List Transaction × Int)) (bc : Blockchain) (built : List Block)
      {bc2 : Blockchain} {out : List Block},
      mineAll E fuel bc built batches = some (bc2, out) →
      ∃ newer, out = newer ++ built ∧ newer.length = batches.length := by
  intro batches
  induction batches with
  | nil =>
    intro bc built bc2 out h
    simp only [mineAll, Option.some.injEq, Prod.mk.injEq] at h
    exact ⟨[], by simp [h.2], rfl⟩
  | cons b rest ih =>
    intro bc built bc2 out h
    obtain ⟨txs, now⟩ := b
    simp only [mineAll] at h
    split at h
    · obtain ⟨newer, e, hl⟩ := ih _ _ h
      exact ⟨newer ++ [bc.minedBlock E txs now], by simp [e], by simp [hl]⟩
    · simp at h

theorem mineAll_inv {E : Env} (hE : E.Lawful) {fuel : Nat} :
    ∀ (batches : List (List Transaction × Int)) (bc : Blockchain) (built : List Block)
      {bc2 : Blockchain} {out : List Block}, LedgerInv E bc built →
      mineAll E fuel bc built batches = some (bc2, out) →
      (out.map fun b => b.Hash).Nodup → LedgerInv E bc2 out := by
  intro batches
  induction batches with
  | nil =>
    intro bc built bc2 out hinv h _
    simp only [mineAll, Option.some.injEq, Prod.mk.injEq] at h
    rw [← h.1, ← h.2]
    exact hinv
  | cons b rest ih =>
    intro bc built bc2 out hinv h hnd
    obtain ⟨txs, now⟩ := b
    simp only [mineAll] at h
    split at h
    · rename_i bc1 hm
      obtain ⟨newer, e, _⟩ := mineAll_extends rest _ _ h
      refine ih _ _ (mineBlock_inv hE hinv hm ?_) h hnd
      intro blk hblk heq
      rw [e] at hnd
      simp only [List.map_append, List.map_cons] at hnd
      have hnd2 := (List.nodup_append.mp hnd).2.1
      simp only [List.nodup_cons, List.mem_map, not_exists, not_and] at hnd2
      exact hnd2.1 blk hblk heq
    · simp at h

theorem blocks_of_inv {E : Env} (hE : E.Lawful) {bc : Blockchain} {built : List Block}
    (hinv : LedgerInv E bc built) (k : Nat) :
    bc.blocks E (built.length + k) = .ok built := by
  obtain ⟨head, older, bucket, rfl, htip, hb, _, hs, hlink, _⟩ := hinv
  have h := blocks_of_stores hE bucket head older hs hlink
  have hbc : bc.Iterator = ⟨head.Hash, ⟨some bucket⟩⟩ := by
    cases bc with
    | mk tip db =>
      cases db with
      | mk blocks =>
        simp only at htip hb
        simp [Blockchain.Iterator, htip, hb]
  unfold Blockchain.blocks
  rw [hbc]
  exact blocks_mono h k

theorem linked_prev_ne {chain : List Block} (hl : Linked chain) :
    ∀ newer last, chain = newer ++ [last] → ∀ b ∈ newer, b.PrevBlockHash ≠ [] := by
  induction chain with
  | nil => simp [Linked] at hl
  | cons c rest ih =>
    intro newer last e b hb
    cases rest with
    | nil =>
      cases newer with
      | nil => simp at hb
      | cons n ns =>
        have := congrArg List.length e
        simp at this
    | cons d rest2 =>
      obtain ⟨hp, hne, hl2⟩ := hl
      cases newer with
      | nil =>
        have := congrArg List.length e
        simp at this
      | cons n ns =>
        simp only [List.cons_append, List.cons.injEq] at e
        obtain ⟨rfl, e2⟩ := e
        rcases List.mem_cons.mp hb with rfl | hb2
        · rw [hp]; exact hne
        · exact ih hl2 ns last e2 b hb2

/-! ## C8: the stored tip -/

/-- C8: in a lawful environment, (1) after `NewBlockchain` on a store without the bucket the
key `l` holds the hash of a block stored, serialized, under that hash, and the handle's tip
is that hash; (2) `NewBlockchain` on the store of a ledger for which this holds returns a
handle for which it holds; (3) after every `MineBlock` that returns without a fault the
same holds for the block it built from its arguments, whose `PrevBlockHash` is the tip that
was stored under `l` before the call. -/
theorem C8_tip_stored (E : Env) (hE : E.Lawful) :
    (∀ address now db, db.blocks = none → TipStored E (NewBlockchain E address now db)) ∧
    (∀ address now bc, TipStored E bc → TipStored E (NewBlockchain E address now bc.db)) ∧
    (∀ fuel bc transactions now bc2,
      Blockchain.MineBlock E fuel bc transactions now = (none, bc2) →
      ∃ bucket block, bc2.db.blocks = some bucket ∧ bucket.find tipKey = some block.Hash ∧
        bucket.find block.Hash = some (E.Serialize block) ∧ bc2.tip = block.Hash ∧
        block.Transactions = transactions ∧ block.PrevBlockHash = bc.lastHash) := by
  refine ⟨?_, ?_, ?_⟩
  · intro address now db hdb
    obtain ⟨head, older, bucket, e, htip, hb, hl, hs, _, _⟩ := genesis_inv hE address now db hdb
    exact ⟨bucket, head, hb, hl, hs head (by rw [e]; simp), htip⟩
  · rintro address now bc ⟨bucket, block, hb, hl, hs, _⟩
    refine ⟨bucket, block, ?_, hl, hs, ?_⟩
    · simp [NewBlockchain, hb]
    · simp [NewBlockchain, hb, hl]
  · intro fuel bc txs now bc2 hm
    obtain ⟨_, bucket, _, rfl⟩ := mineBlock_ok_iff hm
    have hlen : (bc.minedBlock E txs now).Hash.length = 32 := hE.newBlock_hash _ _ _
    refine ⟨_, bc.minedBlock E txs now, rfl, ?_, ?_, rfl, hE.newBlock_transactions _ _ _,
      hE.newBlock_prev _ _ _⟩
    · simp [GoMap.find_put]
    · simp [GoMap.find_put, tipKey_ne_of_length hlen]

/-- C8 in the small environment: after `NewBlockchain` for `demoAddress` on the empty store,
and after mining an empty batch on that ledger. -/
theorem C8_tip_stored_witness :
    TipStored demoEnv (NewBlockchain demoEnv demoAddress 0 emptyDB) ∧
    ∃ bc2, Blockchain.MineBlock demoEnv 1 (NewBlockchain demoEnv demoAddress 0 emptyDB) [] 1 =
        (none, bc2) ∧
      ∃ bucket block, bc2.db.blocks = some bucket ∧ bucket.find tipKey = some block.Hash ∧
        bucket.find block.Hash = some (demoEnv.Serialize block) ∧ bc2.tip = block.Hash ∧
        block.Transactions = [] ∧
        block.PrevBlockHash = (NewBlockchain demoEnv demoAddress 0 emptyDB).lastHash :=
  ⟨(C8_tip_stored demoEnv demoEnv_lawful).1 demoAddress 0 emptyDB rfl,
    _, rfl, (C8_tip_stored demoEnv demoEnv_lawful).2.2 1 _ [] 1 _ rfl⟩

/-! ## C9: iteration from the tip -/

/-- C9: in a lawful environment, for every ledger reached by `NewBlockchain` on the empty
store followed by `n` calls of `MineBlock` that return without a fault, the blocks built
having pairwise distinct hashes: calling `Next` on a fresh iterator until a block with empty
`PrevBlockHash` is returned ends within `n + 1` calls (and with any larger allowance gives
the same), yields exactly the `n + 1` blocks built, newest first and each naming the next
as its predecessor, and the last block yielded is the genesis block, the only one with
empty `PrevBlockHash`. -/
theorem C9_iteration (E : Env) (hE : E.Lawful) (fuel : Nat) (address : GoString) (now : Int)
    (batches : List (List Transaction × Int)) (bc : Blockchain) (built : List Block)
    (hrun : runLedger E fuel address now batches = some (bc, built))
    (hnd : (built.map fun b => b.Hash).Nodup) :
    (∀ k, bc.blocks E (batches.length + 1 + k) = .ok built) ∧
    built.length = batches.length + 1 ∧ Linked built ∧
    ∃ newer, built = newer ++ [genesisOf E address now] ∧
      (genesisOf E address now).PrevBlockHash = [] ∧ ∀ b ∈ newer, b.PrevBlockHash ≠ [] := by
  unfold runLedger at hrun
  have hinv := mineAll_inv hE batches _ _ (genesis_inv hE address now emptyDB rfl) hrun hnd
  obtain ⟨newer, e, hlen⟩ := mineAll_extends batches _ _ hrun
  have hlen2 : built.length = batches.length + 1 := by rw [e]; simp [hlen]
  have hlink : Linked built := by
    obtain ⟨_, _, _, _, _, _, _, _, hl, _⟩ := hinv
    exact hl
  refine ⟨?_, hlen2, hlink, newer, e, hE.newBlock_prev _ _ _, linked_prev_ne hlink newer _ e⟩
  intro k
  rw [← hlen2]
  exact blocks_of_inv hE hinv k

/-- C9 in the small environment: `NewBlockchain` for `demoAddress` and two empty batches,
mined at the clock readings 1 and 2. -/
theorem C9_iteration_witness :
    ∃ bc built, runLedger demoEnv 1 demoAddress 0 [([], 1), ([], 2)] = some (bc, built) ∧
      (built.map fun b => b.Hash).Nodup ∧
      (∀ k, bc.blocks demoEnv (2 + 1 + k) = .ok built) ∧
      built.length = 2 + 1 ∧ Linked built ∧
      ∃ newer, built = newer ++ [genesisOf demoEnv demoAddress 0] ∧
        (genesisOf demoEnv demoAddress 0).PrevBlockHash = [] ∧
        ∀ b ∈ newer, b.PrevBlockHash ≠ [] :=
  ⟨_, _, rfl, by decide,
    C9_iteration demoEnv demoEnv_lawful 1 demoAddress 0 [([], 1), ([], 2)] _ _ rfl
      (by decide)⟩

/-! ## C2: what `MineBlock` admits -/

theorem findTransaction_sound {E : Env} (id : Bytes) :
    ∀ (fuel big : Nat) (bci : BlockchainIterator) (chain : List Block)
      (tx : Transaction) (err : Option GoString),
      BlockchainIterator.blocks E big bci = .ok chain →
      FindTransaction.loop E id fuel bci = .ok (tx, err) →
      tx ∈ chainTxs chain ∨ tx = Transaction.zero := by
  intro fuel
  induction fuel with
  | zero => intro big bci chain tx err _ hf; simp [FindTransaction.loop] at hf
  | succ n ih =>
    intro big bci chain tx err hw hf
    cases big with
    | zero => simp [BlockchainIterator.blocks] at hw
    | succ b =>
      simp only [BlockchainIterator.blocks] at hw
      simp only [FindTransaction.loop] at hf
      split at hw
      · simp at hw
      · rename_i block bci2 hn
        rw [hn] at hf
        simp only at hf
        cases hfind : block.Transactions.find? (fun t => t.ID == id) with
        | some t =>
          rw [hfind] at hf
          simp only [Except.ok.injEq, Prod.mk.injEq] at hf
          have hmem : t ∈ block.Transactions := List.mem_of_find?_eq_some hfind
          left
          rw [← hf.1]
          split at hw
          · cases hw
            simp [chainTxs, hmem]
          · split at hw
            · simp at hw
            · cases hw
              rw [chainTxs_cons]
              exact List.mem_append_left _ hmem
        | none =>
          rw [hfind] at hf
          simp only at hf
          split at hw
          · rename_i hp
            simp only [hp, if_true, Except.ok.injEq, Prod.mk.injEq] at hf
            exact Or.inr hf.1.symm
          · rename_i hp
            simp only [hp, if_false] at hf
            split at hw
            · simp at hw
            · rename_i rest hr
              cases hw
              rcases ih b bci2 rest tx err hr hf with h1 | h1
              · left
                rw [chainTxs_cons]
                exact List.mem_append_right _ h1
              · exact Or.inr h1

theorem collectPrevTXs_sound {E : Env} {fuel big : Nat} {bc : Blockchain}
    {chain : List Block} (hw : bc.blocks E big = .ok chain) (vins : List TXInput) :
    ∀ (m m2 : GoMap GoString Transaction),
      (∀ k, m.get k Transaction.zero = Transaction.zero ∨
        (m.get k Transaction.zero ∈ chainTxs chain ∧
          hexEncode (m.get k Transaction.zero).ID = k)) →
      bc.collectPrevTXs E fuel vins m = .ok m2 →
      ∀ k, m2.get k Transaction.zero = Transaction.zero ∨
        (m2.get k Transaction.zero ∈ chainTxs chain ∧
          hexEncode (m2.get k Transaction.zero).ID = k) := by
  induction vins with
  | nil =>
    intro m m2 hm h
    simp only [Blockchain.collectPrevTXs, Except.ok.injEq] at h
    rw [← h]
    exact hm
  | cons vin rest ih =>
    intro m m2 hm h
    simp only [Blockchain.collectPrevTXs] at h
    split at h
    · simp at h
    · rename_i prevTX err hf
      refine ih _ m2 ?_ h
      intro k
      rw [GoMap.get_put]
      by_cases hk : hexEncode prevTX.ID = k
      · rw [if_pos hk]
        rcases findTransaction_sound vin.Txid fuel big _ chain prevTX err hw hf with h1 | h1
        · exact Or.inr ⟨h1, hk⟩
        · exact Or.inl h1
      · rw [if_neg hk]
        exact hm k

theorem verify_inputs {E : Env} {tx : Transaction} {prevTXs : GoMap GoString Transaction}
    (hv : tx.Verify E prevTXs = true) (hc : tx.IsCoinbase = false) :
    ∀ vin ∈ tx.Vin, ∃ out,
      indexInt (prevTXs.get (hexEncode vin.Txid) Transaction.zero).Vout vin.Vout = some out := by
  intro vin hvin
  simp only [Transaction.Verify, hc, Bool.false_eq_true, if_false, List.all_eq_true] at hv
  obtain ⟨i, hi⟩ := List.mem_iff_getElem?.mp hvin
  have hmem : (i, vin) ∈ tx.Vin.enum := List.mk_mem_enum_iff_getElem?.mpr hi
  have := hv (i, vin) hmem
  simp only at this
  split at this
  · simp at this
  · rename_i out ho
    exact ⟨out, ho⟩

theorem verifyTransaction_sound {E : Env} {fuel big : Nat} {bc : Blockchain}
    {chain : List Block} (hw : bc.blocks E big = .ok chain) {tx : Transaction}
    (hv : bc.VerifyTransaction E fuel tx = .ok true) (hc : tx.IsCoinbase = false) :
    ∀ vin ∈ tx.Vin, ∃ t ∈ chainTxs chain, t.ID = vin.Txid ∧
      ∃ out, indexInt t.Vout vin.Vout = some out := by
  unfold Blockchain.VerifyTransaction at hv
  split at hv
  · simp at hv
  · rename_i prevTXs hp
    simp only [Except.ok.injEq] at hv
    have hm := collectPrevTXs_sound hw tx.Vin [] prevTXs
      (fun k => Or.inl (by simp [GoMap.get])) hp
    intro vin hvin
    obtain ⟨out, ho⟩ := verify_inputs hv hc vin hvin
    rcases hm (hexEncode vin.Txid) with hz | ⟨hin, hid⟩
    · rw [hz] at ho
      simp [Transaction.zero, indexInt] at ho
    · exact ⟨_, hin, hexEncode_inj hid, out, ho⟩

theorem verifyAll_ok {E : Env} {fuel : Nat} {bc : Blockchain} :
    ∀ (txs : List Transaction), bc.verifyAll E fuel txs = .ok () →
      ∀ tx ∈ txs, bc.VerifyTransaction E fuel tx = .ok true := by
  intro txs
  induction txs with
  | nil => intro _ tx htx; simp at htx
  | cons t rest ih =>
    intro h tx htx
    simp only [Blockchain.verifyAll] at h
    split at h
    · simp at h
    · rename_i ok hok
      cases ok with
      | false => simp at h
      | true =>
        simp only [bne_self_eq_false, Bool.false_eq_true, if_false] at h
        rcases List.mem_cons.mp htx with rfl | hr
        · exact hok
        · exact ih h tx hr

theorem inputsExist_cons {E : Env} (hE : E.Lawful) {fuel : Nat} {bc bc2 : Blockchain}
    {built : List Block} (hinv : LedgerInv E bc built) (hex : InputsExist built)
    {txs : List Transaction} {now : Int}
    (hm : bc.MineBlock E fuel txs now = (none, bc2)) :
    InputsExist (bc.minedBlock E txs now :: built) := by
  obtain ⟨hv, _⟩ := mineBlock_ok_iff hm
  have hw := blocks_of_inv hE hinv 0
  intro tx htx hc vin hvin
  rw [chainTxs_cons] at htx ⊢
  rcases List.mem_append.mp htx with h1 | h1
  · have htx2 : tx ∈ txs := by
      have := hE.newBlock_transactions txs bc.lastHash now
      rw [Blockchain.minedBlock, this] at h1
      exact h1
    obtain ⟨t, ht, hid, ho⟩ :=
      verifyTransaction_sound hw (verifyAll_ok txs hv tx htx2) hc vin hvin
    exact ⟨t, List.mem_append_right _ ht, hid, ho⟩
  · obtain ⟨t, ht, hid, ho⟩ := hex tx h1 hc vin hvin
    exact ⟨t, List.mem_append_right _ ht, hid, ho⟩

theorem mineAll_inputsExist {E : Env} (hE : E.Lawful) {fuel : Nat} :
    ∀ (batches : List (List Transaction × Int)) (bc : Blockchain) (built : List Block)
      {bc2 : Blockchain} {out : List Block}, LedgerInv E bc built → InputsExist built →
      mineAll E fuel bc built batches = some (bc2, out) →
      (out.map fun b => b.Hash).Nodup → InputsExist out := by
  intro batches
  induction batches with
  | nil =>
    intro bc built bc2 out _ hex h _
    simp only [mineAll, Option.some.injEq, Prod.mk.injEq] at h
    rw [← h.2]
    exact hex
  | cons b rest ih =>
    intro bc built bc2 out hinv hex h hnd
    obtain ⟨txs, now⟩ := b
    simp only [mineAll] at h
    split at h
    · rename_i bc1 hm
      obtain ⟨newer, e, _⟩ := mineAll_extends rest _ _ h
      refine ih _ _ (mineBlock_inv hE hinv hm ?_) (inputsExist_cons hE hinv hex hm) h hnd
      intro blk hblk heq
      rw [e] at hnd
      simp only [List.map_append, List.map_cons] at hnd
      have hnd2 := (List.nodup_append.mp hnd).2.1
      simp only [List.nodup_cons, List.mem_map, not_exists, not_and] at hnd2
      exact hnd2.1 blk hblk heq
    · simp at h

theorem inputsExist_genesis {E : Env} (hE : E.Lawful) (address : GoString) (now : Int) :
    InputsExist [genesisOf E address now] := by
  intro tx htx hc
  have ht : (genesisOf E address now).Transactions =
      [E.NewCoinbaseTX address genesisCoinbaseData] := hE.newBlock_transactions _ _ _
  simp only [chainTxs, List.flatMap_cons, List.flatMap_nil, List.append_nil, ht,
    List.mem_singleton] at htx
  rw [htx, hE.coinbase] at hc
  cases hc

theorem verifyAll_of_verify {E : Env} {fuel : Nat} {bc : Blockchain} {chain : List Block}
    (hw : bc.blocks E fuel = .ok chain) :
    ∀ (txs : List Transaction),
      (∀ tx ∈ txs, tx.Verify E (prevTXsOf (chainTxs chain) tx.Vin []) = true) →
      bc.verifyAll E fuel txs = .ok () := by
  intro txs
  induction txs with
  | nil => intro _; rfl
  | cons t rest ih =>
    intro hv
    simp only [Blockchain.verifyAll, verifyTransaction_eq hw, hv t (by simp),
      bne_self_eq_false, Bool.false_eq_true, if_false]
    exact ih (fun tx htx => hv tx (List.mem_cons_of_mem _ htx))

/-- On a ledger holding a chain, a batch whose transactions verify against the chain is
mined: the call returns without a fault and builds its block on the newest block. -/
theorem mineBlock_step {E : Env} (hE : E.Lawful) {bc : Blockchain} {head : Block}
    {older : List Block} (hinv : LedgerInv E bc (head :: older)) (k : Nat)
    (txs : List Transaction) (now : Int)
    (hv : ∀ tx ∈ txs, tx.Verify E (prevTXsOf (chainTxs (head :: older)) tx.Vin []) = true) :
    ∃ bc2, bc.MineBlock E ((head :: older).length + k) txs now = (none, bc2) ∧
      bc.minedBlock E txs now = E.NewBlock txs head.Hash now := by
  have hw := blocks_of_inv hE hinv k
  have hva := verifyAll_of_verify hw txs hv
  have hlast := lastHash_of_inv hinv
  obtain ⟨_, _, bucket, _, _, hb, _⟩ := hinv
  have h1 : (bc.MineBlock E ((head :: older).length + k) txs now).1 = none := by
    unfold Blockchain.MineBlock
    rw [hva]
    simp only [hb]
  exact ⟨(bc.MineBlock E ((head :: older).length + k) txs now).2, Prod.ext h1 rfl,
    by rw [Blockchain.minedBlock, hlast]⟩

theorem mineAll_cons {E : Env} {fuel : Nat} {bc bc1 : Blockchain} {built : List Block}
    {txs : List Transaction} {now : Int} (rest : List (List Transaction × Int))
    (hm : bc.MineBlock E fuel txs now = (none, bc1)) :
    mineAll E fuel bc built ((txs, now) :: rest) =
      mineAll E fuel bc1 (bc.minedBlock E txs now :: built) rest := by
  simp only [mineAll, hm]

theorem demo_run :
    ∃ bc, runLedger demoEnv 3 demoAddress 0 [([demoSpend], 1), ([demoSpend], 2)] =
      some (bc, demoReplay) := by
  have inv0 := genesis_inv demoEnv_lawful demoAddress 0 emptyDB rfl
  obtain ⟨bc1, hm1, hb1⟩ := mineBlock_step demoEnv_lawful inv0 2 [demoSpend] 1 (by decide)
  have inv1 := mineBlock_inv demoEnv_lawful inv0 hm1 (by rw [hb1]; decide)
  rw [hb1] at inv1
  obtain ⟨bc2, hm2, hb2⟩ := mineBlock_step demoEnv_lawful inv1 1 [demoSpend] 2 (by decide)
  refine ⟨bc2, ?_⟩
  have e1 : [genesisOf demoEnv demoAddress 0].length + 2 = 3 := rfl
  have e2 : [demoEnv.NewBlock [demoSpend] (genesisOf demoEnv demoAddress 0).Hash 1,
      genesisOf demoEnv demoAddress 0].length + 1 = 3 := rfl
  rw [e1] at hm1
  rw [e2] at hm2
  rw [runLedger, mineAll_cons _ hm1, hb1, mineAll_cons _ hm2, hb2]
  rfl

/-- C2, as stated, fails: in the small environment, `NewBlockchain` on the empty store
followed by two calls of `MineBlock` with the same signed transaction, both returning
without a fault, produces the chain `demoReplay`, walked as such from the tip, in which
the inputs of the two mined transactions reference the same output (genesis coinbase, 0):
`MineBlock` admits a transaction that spends an already-spent output. -/
theorem C2_counterexample :
    ∃ bc, runLedger demoEnv 3 demoAddress 0 [([demoSpend], 1), ([demoSpend], 2)] =
        some (bc, demoReplay) ∧
      bc.blocks demoEnv 3 = .ok demoReplay ∧
      (demoReplay.map fun b => b.Hash).Nodup ∧
      ¬ NoDoubleSpend demoReplay := by
  obtain ⟨bc, hrun⟩ := demo_run
  have hnd : (demoReplay.map fun b => b.Hash).Nodup := by decide
  have hinv := mineAll_inv demoEnv_lawful _ _ _
    (genesis_inv demoEnv_lawful demoAddress 0 emptyDB rfl) hrun hnd
  exact ⟨bc, hrun, blocks_of_inv demoEnv_lawful hinv 0, hnd, by decide⟩

/-- C2, amended: in a lawful environment, in every chain produced by `NewBlockchain` on the
empty store followed by calls of `MineBlock` that return without a fault, the blocks built
having pairwise distinct hashes, the chain built is the chain walked from the tip and
every input of a non-coinbase transaction references a `(Txid, Vout)` output that exists
in the chain. (Whether another input references the same output is not checked.) -/
theorem C2_inputs_exist (E : Env) (hE : E.Lawful) (fuel : Nat) (address : GoString)
    (now : Int) (batches : List (List Transaction × Int)) (bc : Blockchain)
    (built : List Block)
    (hrun : runLedger E fuel address now batches = some (bc, built))
    (hnd : (built.map fun b => b.Hash).Nodup) :
    (∀ k, bc.blocks E (batches.length + 1 + k) = .ok built) ∧ InputsExist built := by
  unfold runLedger at hrun
  have hinv := mineAll_inv hE batches _ _ (genesis_inv hE address now emptyDB rfl) hrun hnd
  obtain ⟨newer, e, hlen⟩ := mineAll_extends batches _ _ hrun
  have hlen2 : built.length = batches.length + 1 := by rw [e]; simp [hlen]
  refine ⟨?_, mineAll_inputsExist hE batches _ _ (genesis_inv hE address now emptyDB rfl)
    (inputsExist_genesis hE address now) hrun hnd⟩
  intro k
  rw [← hlen2]
  exact blocks_of_inv hE hinv k

/-- C2, amended, in the small environment, at the run that mines `demoSpend` twice. -/
theorem C2_inputs_exist_witness :
    ∃ bc, runLedger demoEnv 3 demoAddress 0 [([demoSpend], 1), ([demoSpend], 2)] =
        some (bc, demoReplay) ∧
      (∀ k, bc.blocks demoEnv (2 + 1 + k) = .ok demoReplay) ∧ InputsExist demoReplay :=
  demo_run.elim fun bc hrun =>
    ⟨bc, hrun, C2_inputs_exist demoEnv demoEnv_lawful 3 demoAddress 0
      [([demoSpend], 1), ([demoSpend], 2)] bc demoReplay hrun (by decide)⟩

/-! ## C11 and C12: `NewBlockchain` -/

/-- C11: on every store that already holds the bucket `blocks`, and for every address
(and clock reading), `NewBlockchain` returns a handle on the very same store, no block
added and the key `l` untouched, whose tip is the hash stored under `l` (the `nil` slice
when the key is absent); hence the result is the same for every other address. -/
theorem C11_existing_store (E : Env) (address : GoString) (now : Int) (db : DB) (b : Bucket)
    (hdb : db.blocks = some b) :
    (NewBlockchain E address now db).db = db ∧
    (NewBlockchain E address now db).tip = (b.find tipKey).getD [] ∧
    ∀ address2 now2, NewBlockchain E address2 now2 db = NewBlockchain E address now db := by
  simp [NewBlockchain, hdb]

/-- C11 at the store of the ledger holding `sendChain`: the handle returned for
`demoAddress` is the ledger itself. -/
theorem C11_existing_store_witness :
    (NewBlockchain demoEnv demoAddress 7 (ledgerOf demoEnv sendChain).db).db =
      (ledgerOf demoEnv sendChain).db ∧
    (NewBlockchain demoEnv demoAddress 7 (ledgerOf demoEnv sendChain).db).tip = hashOf 1 ∧
    ∀ address2 now2, NewBlockchain demoEnv address2 now2 (ledgerOf demoEnv sendChain).db =
      NewBlockchain demoEnv demoAddress 7 (ledgerOf demoEnv sendChain).db := by
  have h := C11_existing_store demoEnv demoAddress 7 (ledgerOf demoEnv sendChain).db
    ((bucketOf demoEnv sendChain).put tipKey (hashOf 1)) rfl
  refine ⟨h.1, ?_, h.2.2⟩
  rw [h.2.1, GoMap.find_put]
  rfl

/-- C12: in a lawful environment, for every address, `NewBlockchain` on a store without the
bucket `blocks` creates the bucket with exactly two entries, the genesis block, serialized,
under its hash and that hash under the key `l`; the genesis block has the empty
`PrevBlockHash` and, as its transactions, exactly the one transaction
`NewCoinbaseTX(address, genesisCoinbaseData)`, which is a coinbase transaction; and the tip
of the handle returned is the hash of the genesis block. -/
theorem C12_fresh_store (E : Env) (hE : E.Lawful) (address : GoString) (now : Int) (db : DB)
    (hdb : db.blocks = none) :
    ∃ genesis,
      (NewBlockchain E address now db).db.blocks =
        some [(genesis.Hash, E.Serialize genesis), (tipKey, genesis.Hash)] ∧
      genesis.Hash ≠ tipKey ∧
      genesis.PrevBlockHash = [] ∧
      genesis.Transactions = [E.NewCoinbaseTX address genesisCoinbaseData] ∧
      (E.NewCoinbaseTX address genesisCoinbaseData).IsCoinbase = true ∧
      (NewBlockchain E address now db).tip = genesis.Hash := by
  have hlen : (genesisOf E address now).Hash.length = 32 := hE.newBlock_hash _ _ _
  have hne : ¬ (genesisOf E address now).Hash = tipKey :=
    fun e => tipKey_ne_of_length hlen e.symm
  refine ⟨genesisOf E address now, ?_, hne, hE.newBlock_prev _ _ _,
    hE.newBlock_transactions _ _ _, hE.coinbase _ _, ?_⟩
  · simp only [NewBlockchain, hdb, GoMap.put]
    have hne2 : ¬ (NewGenesisBlock E (E.NewCoinbaseTX address genesisCoinbaseData) now).Hash =
        tipKey := hne
    simp [hne2, genesisOf]
  · simp [NewBlockchain, hdb, genesisOf]

/-- C12 in the small environment, for `demoAddress` on the empty store. -/
theorem C12_fresh_store_witness :
    ∃ genesis,
      (NewBlockchain demoEnv demoAddress 0 emptyDB).db.blocks =
        some [(genesis.Hash, demoEnv.Serialize genesis), (tipKey, genesis.Hash)] ∧
      genesis.Hash ≠ tipKey ∧
      genesis.PrevBlockHash = [] ∧
      genesis.Transactions = [demoEnv.NewCoinbaseTX demoAddress genesisCoinbaseData] ∧
      (demoEnv.NewCoinbaseTX demoAddress genesisCoinbaseData).IsCoinbase = true ∧
      (NewBlockchain demoEnv demoAddress 0 emptyDB).tip = genesis.Hash :=
  C12_fresh_store demoEnv demoEnv_lawful demoAddress 0 emptyDB rfl

/-! ## C13: loading the wallets -/

/-- C13, as stated, fails: when the wallet file does not exist, `NewWallets` does not
return the empty collection with a `nil` error. -/
theorem C13_counterexample :
    NewWallets (fun _ => none) .absent ≠ .ok (⟨[]⟩, none) := by
  decide

/-- C13, amended: when the wallet file does not exist, `NewWallets` returns, whatever the
decoder, the empty collection together with the not-exist error of `os.Stat` that
`LoadFromFile` hands back; nothing is read and nothing panics. -/
theorem C13_missing_file (gobDecode : Bytes → Option (GoMap GoString Wallet)) :
    NewWallets gobDecode .absent = .ok (⟨[]⟩, some .notExist) ∧
    ∀ ws : Wallets, ws.LoadFromFile gobDecode .absent = .ok (ws, some .notExist) :=
  ⟨rfl, fun _ => rfl⟩

/-! ## C14: the public key of `newKeyPair` -/

theorem bigBytes_length (n : Nat) : (bigBytes n).length = (Nat.digits 256 n).length := by
  simp [bigBytes]

theorem digits_length_le_32 {n : Nat} (h : n < 2 ^ 256) : (Nat.digits 256 n).length ≤ 32 := by
  by_cases hn : n = 0
  · simp [hn]
  · rw [Nat.digits_len 256 n (by norm_num) hn]
    have : Nat.log 256 n < 32 :=
      (Nat.lt_pow_iff_log_lt (by norm_num) hn).mp (by norm_num; omega)
    omega

theorem digits_length_eq_32 {n : Nat} (h : n < 2 ^ 256) :
    (Nat.digits 256 n).length = 32 ↔ 2 ^ 248 ≤ n := by
  by_cases hn : n = 0
  · simp [hn]
  · rw [Nat.digits_len 256 n (by norm_num) hn]
    have h1 : Nat.log 256 n < 32 :=
      (Nat.lt_pow_iff_log_lt (by norm_num) hn).mp (by norm_num; omega)
    have h2 : 256 ^ 31 ≤ n ↔ 31 ≤ Nat.log 256 n := Nat.pow_le_iff_le_log (by norm_num) hn
    have e : (256 : Nat) ^ 31 = 2 ^ 248 := by norm_num
    rw [e] at h2
    rw [h2]
    omega

/-- C14, what the code does: for every generated key whose coordinates are below `2 ^ 256`,
the public key of `newKeyPair` is `X.Bytes()` followed by `Y.Bytes()`, it has at most 64
bytes, and it has 64 bytes exactly when both coordinates are at least `2 ^ 248`; a
coordinate with a leading zero byte makes the key shorter. -/
theorem C14_pubkey_length (generated : PrivateKey)
    (hX : generated.PublicKey.X < 2 ^ 256) (hY : generated.PublicKey.Y < 2 ^ 256) :
    (newKeyPair generated).2 =
      bigBytes generated.PublicKey.X ++ bigBytes generated.PublicKey.Y ∧
    (newKeyPair generated).2.length ≤ 64 ∧
    ((newKeyPair generated).2.length = 64 ↔
      2 ^ 248 ≤ generated.PublicKey.X ∧ 2 ^ 248 ≤ generated.PublicKey.Y) := by
  have hx := digits_length_le_32 hX
  have hy := digits_length_le_32 hY
  have ex := digits_length_eq_32 hX
  have ey := digits_length_eq_32 hY
  refine ⟨rfl, ?_, ?_⟩
  · simp only [newKeyPair, List.length_append, bigBytes_length]
    omega
  · simp only [newKeyPair, List.length_append, bigBytes_length]
    rw [← ex, ← ey]
    omega

/-- C14 at the failing input `shortKey`, the P-256 key pair of the scalar 379: its `X`
coordinate takes 31 bytes, so the public key has 63 bytes, not 64. -/
theorem C14_pubkey_length_witness :
    (newKeyPair shortKey).2 =
      bigBytes shortKey.PublicKey.X ++ bigBytes shortKey.PublicKey.Y ∧
    (bigBytes shortKey.PublicKey.X).length = 31 ∧
    (newKeyPair shortKey).2.length = 63 ∧
    ¬ (newKeyPair shortKey).2.length = 64 := by
  have h := C14_pubkey_length shortKey (by norm_num [shortKey]) (by norm_num [shortKey])
  have h1 : (Nat.digits 256 shortKey.PublicKey.X).length = 31 := by
    rw [Nat.digits_len 256 _ (by norm_num) (by norm_num [shortKey])]
    have hlog : Nat.log 256 shortKey.PublicKey.X = 30 :=
      Nat.log_eq_of_pow_le_of_lt_pow (by norm_num [shortKey]) (by norm_num [shortKey])
    rw [hlog]
  have h2 : (Nat.digits 256 shortKey.PublicKey.Y).length = 32 :=
    (digits_length_eq_32 (by norm_num [shortKey])).mpr (by norm_num [shortKey])
  have h63 : (newKeyPair shortKey).2.length = 63 := by
    simp only [newKeyPair, List.length_append, bigBytes_length, h1, h2]
  refine ⟨h.1, by rw [bigBytes_length, h1], h63, ?_⟩
  rw [h63]
  norm_num

/-! ## C15: the address of a wallet -/

/-- C15: with SHA-256 giving 32 bytes and RIPEMD-160 giving 20, for every wallet,
`GetAddress` returns `Base58Encode(p)` where `p` is the version byte 0, followed by
`HashPubKey(publicKey)`, followed by the first 4 bytes of the double SHA-256 of the version
byte and that hash; `p` has 25 bytes, the checksum recomputed over `p` without its last 4
bytes is those 4 bytes, and the bytes 1 to 20 of `p` are the public-key hash. -/
theorem C15_address (E : Env) (Base58Encode : Bytes → Bytes) (w : Wallet)
    (hsha : ∀ x, (E.sha256 x).length = 32) (hrip : ∀ x, (E.ripemd160 x).length = 20) :
    w.GetAddress E Base58Encode = Base58Encode (fullPayload E w.PublicKey) ∧
    fullPayload E w.PublicKey =
      [0] ++ HashPubKey E w.PublicKey ++
        (E.sha256 (E.sha256 ([0] ++ HashPubKey E w.PublicKey))).take 4 ∧
    (fullPayload E w.PublicKey).length = 25 ∧
    checksum E ((fullPayload E w.PublicKey).take
        ((fullPayload E w.PublicKey).length - addressChecksumLen)) =
      (fullPayload E w.PublicKey).drop
        ((fullPayload E w.PublicKey).length - addressChecksumLen) ∧
    ((fullPayload E w.PublicKey).drop 1).take 20 = HashPubKey E w.PublicKey := by
  have hh : (HashPubKey E w.PublicKey).length = 20 := hrip _
  have hv : ([version] ++ HashPubKey E w.PublicKey).length = 21 := by
    simp [hh]
  have hc : (checksum E ([version] ++ HashPubKey E w.PublicKey)).length = 4 := by
    simp [checksum, addressChecksumLen, hsha]
  have hlen : (fullPayload E w.PublicKey).length = 25 := by
    simp only [fullPayload, List.length_append, hc]
    simp [hh]
  refine ⟨rfl, rfl, hlen, ?_, ?_⟩
  · rw [hlen]
    have e : 25 - addressChecksumLen = ([version] ++ HashPubKey E w.PublicKey).length := by
      rw [hv]; rfl
    rw [e]
    simp only [fullPayload]
    rw [List.take_left, List.drop_left]
  · simp only [fullPayload, List.singleton_append, List.cons_append, List.drop_succ_cons,
      List.drop_zero]
    rw [← hh, List.nil_append, List.take_left]

/-- C15 in the small environment with sized hashes, with the identity for `Base58Encode`,
for a wallet whose public key is the two bytes 1, 2. -/
theorem C15_address_witness :
    Wallet.GetAddress hashEnv (fun bs => bs) ⟨⟨⟨1, 2⟩, 5⟩, [1, 2]⟩ =
      fullPayload hashEnv [1, 2] ∧
    (fullPayload hashEnv [1, 2]).length = 25 ∧
    ((fullPayload hashEnv [1, 2]).drop 1).take 20 = HashPubKey hashEnv [1, 2] := by
  have h := C15_address hashEnv (fun bs => bs) ⟨⟨⟨1, 2⟩, 5⟩, [1, 2]⟩
    (fun x => by simp [hashEnv]) (fun x => by simp [hashEnv])
  exact ⟨h.1, h.2.2.1, h.2.2.2.2⟩

/-! ## C16: `FindUnspentTransactions` -/

theorem scanTransactions_coinbase (h : Bytes) (cb : Transaction) (hcb : cb.IsCoinbase = true)
    (m : IndexMap) (acc : List Transaction) :
    (scanTransactions h [cb] (m, acc)).1 = m := by
  simp [scanTransactions, hcb]

/-- C16: on every ledger whose walk yields `chain`, and for every key, the result of
`FindUnspentTransactions` is, in walk order (blocks tip to genesis, transactions in block
order), one copy of each transaction for each of its outputs that is locked to the key
and whose (transaction id, index) no input of a non-coinbase transaction visited earlier
in the walk references; and scanning a coinbase transaction leaves the index of spent
outputs as it was. -/
theorem C16_findUnspentTransactions (E : Env) (fuel : Nat) (bc : Blockchain)
    (chain : List Block) (pubKeyHash : Bytes) (hw : bc.blocks E fuel = .ok chain) :
    bc.FindUnspentTransactions E fuel pubKeyHash =
      .ok ((walkUnspentOutputs pubKeyHash [] (chainTxs chain)).map fun p => p.1) ∧
    ∀ (cb : Transaction) (spentTXOs : IndexMap) (unspentTXs : List Transaction),
      cb.IsCoinbase = true →
      (scanTransactions pubKeyHash [cb] (spentTXOs, unspentTXs)).1 = spentTXOs :=
  ⟨findUnspentTransactions_eq hw pubKeyHash,
    fun cb m acc hcb => scanTransactions_coinbase pubKeyHash cb hcb m acc⟩

/-- C16 at the ledger holding `selfSendChain`: the spending transaction is returned twice,
once for each of its two outputs locked to `alice`, and the spent genesis coinbase is not
returned. -/
theorem C16_findUnspentTransactions_witness :
    (ledgerOf demoEnv selfSendChain).blocks demoEnv 2 = .ok selfSendChain ∧
    (ledgerOf demoEnv selfSendChain).FindUnspentTransactions demoEnv 2 alice =
      .ok [⟨[8], [⟨[7], 0, [], []⟩], [⟨10, alice⟩, ⟨40, alice⟩]⟩,
        ⟨[8], [⟨[7], 0, [], []⟩], [⟨10, alice⟩, ⟨40, alice⟩]⟩] :=
  ⟨blocks_selfSendChain,
    (C16_findUnspentTransactions demoEnv 2 (ledgerOf demoEnv selfSendChain) selfSendChain
      alice blocks_selfSendChain).1.trans (by decide)⟩

/-! ## C17: the previous transactions handed to `Verify` and `Sign` -/

theorem blocks_emptyIdChain :
    (ledgerOf demoEnv emptyIdChain).blocks demoEnv 1 = .ok emptyIdChain :=
  blocks_ledgerOf demoEnv_lawful emptyIdChain (by decide) (by decide) (by decide)

theorem prevTXsOf_find (txs : List Transaction) (vin : TXInput) (t : Transaction)
    (hne : vin.Txid ≠ []) (hfind : txs.find? (fun tx => tx.ID == vin.Txid) = some t) :
    ∀ (vins : List TXInput) (m : GoMap GoString Transaction),
      (m.find (hexEncode vin.Txid) = some t ∨ vin ∈ vins) →
      (prevTXsOf txs vins m).find (hexEncode vin.Txid) = some t := by
  have htid : t.ID = vin.Txid := by
    have := List.find?_some hfind
    simpa using this
  intro vins
  induction vins with
  | nil =>
    intro m h
    rcases h with h | h
    · exact h
    · simp at h
  | cons v rest ih =>
    intro m h
    simp only [prevTXsOf]
    apply ih
    rw [GoMap.find_put]
    by_cases hk : hexEncode ((txs.find? fun tx => tx.ID == v.Txid).getD Transaction.zero).ID =
        hexEncode vin.Txid
    · left
      rw [if_pos hk]
      have hid := hexEncode_inj hk
      cases hv : txs.find? (fun tx => tx.ID == v.Txid) with
      | none =>
        rw [hv] at hid
        simp only [Option.getD_none, Transaction.zero] at hid
        exact absurd hid.symm hne
      | some t2 =>
        rw [hv] at hid
        simp only [Option.getD_some] at hid ⊢
        have h2 : t2.ID = v.Txid := by
          have := List.find?_some hv
          simpa using this
        have hsame : v.Txid = vin.Txid := by rw [← h2, hid]
        rw [hsame, hfind] at hv
        exact hv.symm
    · rw [if_neg hk]
      rcases h with h | h
      · exact Or.inl h
      · rcases List.mem_cons.mp h with rfl | hr
        · exfalso
          apply hk
          rw [hfind]
          simp [htid]
        · exact Or.inr hr

/-- C17, as stated, fails: on the ledger holding `emptyIdChain`, whose transaction has the
empty `ID`, `FindTransaction` finds that transaction for the first input of `twoInputTx`,
but the map built for `twoInputTx` holds the zero transaction under the hex of that
`Txid`: the lookup of the second input fails and its result is stored under the same,
empty, key. -/
theorem C17_counterexample :
    (ledgerOf demoEnv emptyIdChain).blocks demoEnv 1 = .ok emptyIdChain ∧
    (ledgerOf demoEnv emptyIdChain).FindTransaction demoEnv 1 [] =
      .ok (⟨[], [⟨[], -1, [], []⟩], [⟨50, alice⟩]⟩, none) ∧
    (ledgerOf demoEnv emptyIdChain).collectPrevTXs demoEnv 1 twoInputTx.Vin [] =
      .ok [(hexEncode [], Transaction.zero)] := by
  refine ⟨blocks_emptyIdChain, ?_, ?_⟩
  · rw [findTransaction_eq blocks_emptyIdChain]
    decide
  · rw [collectPrevTXs_eq blocks_emptyIdChain]
    decide

/-- C17, amended: on every ledger whose walk yields `chain`, for every transaction `tx`, the
map built by the loop of `VerifyTransaction` and `SignTransaction` is the one handed to
`Verify` and to `Sign`, and for every input of `tx` whose `Txid` is not empty and is the
`ID` of some transaction of the chain, it holds under the hex of that `Txid` the
transaction `FindTransaction` returns for it, whose `ID` is the `Txid`. -/
theorem C17_prevTXs (E : Env) (fuel : Nat) (bc : Blockchain) (chain : List Block)
    (Sign : Transaction → PrivateKey → GoMap GoString Transaction → Transaction)
    (tx : Transaction) (privKey : PrivateKey) (vin : TXInput)
    (hw : bc.blocks E fuel = .ok chain) (hvin : vin ∈ tx.Vin) (hne : vin.Txid ≠ [])
    (hin : ∃ t ∈ chainTxs chain, t.ID = vin.Txid) :
    ∃ prevTXs found,
      bc.VerifyTransaction E fuel tx = .ok (tx.Verify E prevTXs) ∧
      bc.SignTransaction E fuel Sign tx privKey = .ok (Sign tx privKey prevTXs) ∧
      bc.FindTransaction E fuel vin.Txid = .ok (found, none) ∧
      found.ID = vin.Txid ∧
      prevTXs.find (hexEncode vin.Txid) = some found := by
  obtain ⟨t, ht, htid⟩ := hin
  cases hfind : (chainTxs chain).find? (fun t => t.ID == vin.Txid) with
  | none =>
    have := List.find?_eq_none.mp hfind t ht
    simp [htid] at this
  | some found =>
  have hid : found.ID = vin.Txid := by
    have := List.find?_some hfind
    simpa using this
  have hfound : bc.FindTransaction E fuel vin.Txid = .ok (found, none) := by
    rw [findTransaction_eq hw, hfind]
  refine ⟨prevTXsOf (chainTxs chain) tx.Vin [], found, verifyTransaction_eq hw tx, ?_,
    hfound, hid, prevTXsOf_find _ vin found hne hfind tx.Vin [] (Or.inr hvin)⟩
  unfold Blockchain.SignTransaction
  rw [collectPrevTXs_eq hw]

/-- C17, amended, at the ledger holding `sendChain`, for its spending transaction, whose
input references the genesis coinbase `[7]`. -/
theorem C17_prevTXs_witness :
    (ledgerOf demoEnv sendChain).blocks demoEnv 2 = .ok sendChain ∧
    ∃ prevTXs found,
      (ledgerOf demoEnv sendChain).VerifyTransaction demoEnv 2
          ⟨[8], [⟨[7], 0, [], []⟩], [⟨10, bob⟩, ⟨40, alice⟩]⟩ =
        .ok (Transaction.Verify demoEnv ⟨[8], [⟨[7], 0, [], []⟩], [⟨10, bob⟩, ⟨40, alice⟩]⟩
          prevTXs) ∧
      (ledgerOf demoEnv sendChain).SignTransaction demoEnv 2 (fun tx _ _ => tx)
          ⟨[8], [⟨[7], 0, [], []⟩], [⟨10, bob⟩, ⟨40, alice⟩]⟩ ⟨⟨1, 2⟩, 5⟩ =
        .ok ⟨[8], [⟨[7], 0, [], []⟩], [⟨10, bob⟩, ⟨40, alice⟩]⟩ ∧
      (ledgerOf demoEnv sendChain).FindTransaction demoEnv 2 [7] = .ok (found, none) ∧
      found.ID = [7] ∧ prevTXs.find (hexEncode [7]) = some found :=
  ⟨blocks_sendChain,
    C17_prevTXs demoEnv 2 (ledgerOf demoEnv sendChain) sendChain (fun tx _ _ => tx)
      ⟨[8], [⟨[7], 0, [], []⟩], [⟨10, bob⟩, ⟨40, alice⟩]⟩ ⟨⟨1, 2⟩, 5⟩ ⟨[7], 0, [], []⟩
      blocks_sendChain (by decide) (by decide) (by decide)⟩

/-! ## C18: spendable outputs and the balance -/

theorem candidates_values (h : Bytes) (txs : List Transaction) :
    (candidates h txs).map (fun c => c.2.2) = collectUTXOs h txs := by
  induction txs with
  | nil => rfl
  | cons tx rest ih =>
    have hc : candidates h (tx :: rest) =
        ((tx.Vout.enum.filter fun p => p.2.IsLockedWithKey h).map
          fun p => (hexEncode tx.ID, p.1, p.2)) ++ candidates h rest := by
      simp [candidates]
    have hu : collectUTXOs h (tx :: rest) =
        (tx.Vout.filter fun out => out.IsLockedWithKey h) ++ collectUTXOs h rest := by
      simp [collectUTXOs]
    rw [hc, hu, List.map_append, ih, List.map_map, ← filter_enum_locked]
    rfl

/-- With non-negative values that add up within the range of a Go `int`, the loops reach
the amount exactly when the values add up to it, and otherwise add up all of them. -/
theorem takeCandidates_total (amount : Int) (cs : List Candidate) :
    ∀ (st : SpendState), st.accumulated < amount → 0 ≤ st.accumulated →
      (∀ c ∈ cs, 0 ≤ c.2.2.Value) →
      st.accumulated + (cs.map fun c => c.2.2.Value).sum < 2 ^ 63 →
      (amount ≤ (takeCandidates amount cs st).accumulated ↔
        amount ≤ st.accumulated + (cs.map fun c => c.2.2.Value).sum) ∧
      (st.accumulated + (cs.map fun c => c.2.2.Value).sum < amount →
        (takeCandidates amount cs st).accumulated =
          st.accumulated + (cs.map fun c => c.2.2.Value).sum) := by
  induction cs with
  | nil =>
    intro st hlt _ _ _
    simp [takeCandidates]
  | cons c cs ih =>
    intro st hlt h0 hnn hfit
    have hc0 : 0 ≤ c.2.2.Value := hnn c (by simp)
    have hrest0 : 0 ≤ (cs.map fun c => c.2.2.Value).sum := by
      apply List.sum_nonneg
      intro x hx
      obtain ⟨d, hd, rfl⟩ := List.mem_map.mp hx
      exact hnn d (List.mem_cons_of_mem _ hd)
    simp only [List.map_cons, List.sum_cons] at hfit ⊢
    have hw : wrapInt (st.accumulated + c.2.2.Value) = st.accumulated + c.2.2.Value :=
      wrapInt_of_range (by omega) (by omega)
    rw [takeCandidates, if_pos hlt]
    simp only [hw]
    by_cases hb : st.accumulated + c.2.2.Value ≥ amount
    · rw [if_pos hb]
      constructor
      · constructor
        · intro _; omega
        · intro _; exact hb
      · intro hh; omega
    · rw [if_neg hb]
      have := ih ⟨st.accumulated + c.2.2.Value, addOutput st.unspentOutputs c, false⟩
        (by simpa using hb) (by simp only; omega)
        (fun d hd => hnn d (List.mem_cons_of_mem _ hd)) (by simp only; omega)
      simp only at this
      have e : st.accumulated + c.2.2.Value + (cs.map fun c => c.2.2.Value).sum =
          st.accumulated + (c.2.2.Value + (cs.map fun c => c.2.2.Value).sum) := by ring
      rw [e] at this
      exact this

theorem blocks_overflowChain :
    (ledgerOf demoEnv overflowChain).blocks demoEnv 2 = .ok overflowChain :=
  blocks_ledgerOf demoEnv_lawful overflowChain (by decide) (by decide) (by decide)

/-- C18, as stated, fails: on the ledger holding `overflowChain`, whose output values are
non-negative, and for the amount 1, `FindSpendableOutputs` returns the accumulated value
`2 ^ 62`, which reaches the amount, while the balance, the Go `int` sum of the two values
`2 ^ 62` of `FindUTXO`, has wrapped around to `- 2 ^ 63`, below the amount. -/
theorem C18_counterexample :
    (ledgerOf demoEnv overflowChain).blocks demoEnv 2 = .ok overflowChain ∧
    (∀ tx ∈ chainTxs overflowChain, ∀ out ∈ tx.Vout, 0 ≤ out.Value) ∧
    (ledgerOf demoEnv overflowChain).FindSpendableOutputs demoEnv 2 alice 1 =
      .ok (2 ^ 62, [(hexEncode [8], [0])]) ∧
    (ledgerOf demoEnv overflowChain).FindUTXO demoEnv 2 alice =
      .ok [⟨2 ^ 62, alice⟩, ⟨2 ^ 62, alice⟩] ∧
    getBalance demoEnv 2 (ledgerOf demoEnv overflowChain) alice = .ok (- 2 ^ 63) := by
  refine ⟨blocks_overflowChain, by decide, ?_, ?_, ?_⟩
  · rw [findSpendableOutputs_eq blocks_overflowChain]
    decide
  · rw [findUTXO_eq blocks_overflowChain]
    decide
  · rw [getBalance_eq blocks_overflowChain]
    decide

/-- C18, amended: on every ledger whose walk yields a chain with non-negative output values,
for every key and every amount above 0, if the `Value`s of the outputs `FindUTXO` returns
add up to less than `2 ^ 63` (the balance does not overflow a Go `int`), then the balance
is that sum, `FindSpendableOutputs` returns an accumulated value that reaches the amount if
and only if the balance does, and when the balance is smaller the accumulated value is
the balance. -/
theorem C18_spendable_iff_balance (E : Env) (fuel : Nat) (bc : Blockchain)
    (chain : List Block) (pubKeyHash : Bytes) (amount : Int) (utxos : List TXOutput)
    (hw : bc.blocks E fuel = .ok chain) (hpos : 0 < amount)
    (hnn : ∀ tx ∈ chainTxs chain, ∀ out ∈ tx.Vout, 0 ≤ out.Value)
    (hu : bc.FindUTXO E fuel pubKeyHash = .ok utxos)
    (hfit : (utxos.map fun out => out.Value).sum < 2 ^ 63) :
    ∃ acc m, bc.FindSpendableOutputs E fuel pubKeyHash amount = .ok (acc, m) ∧
      getBalance E fuel bc pubKeyHash = .ok (utxos.map fun out => out.Value).sum ∧
      (amount ≤ acc ↔ amount ≤ (utxos.map fun out => out.Value).sum) ∧
      ((utxos.map fun out => out.Value).sum < amount →
        acc = (utxos.map fun out => out.Value).sum) := by
  have hu2 := findUTXO_eq hw pubKeyHash
  rw [hu] at hu2
  simp only [Except.ok.injEq] at hu2
  have hvals : (utxos.map fun out => out.Value) =
      (candidates pubKeyHash
        ((walkUnspentOutputs pubKeyHash [] (chainTxs chain)).map fun p => p.1)).map
          fun c => c.2.2.Value := by
    rw [hu2, ← candidates_values, List.map_map]
    rfl
  have hcnn : ∀ c ∈ candidates pubKeyHash
      ((walkUnspentOutputs pubKeyHash [] (chainTxs chain)).map fun p => p.1),
      0 ≤ c.2.2.Value := by
    intro c hc
    obtain ⟨tx, htx, _, hget, _, _⟩ := mem_candidates hc
    exact hnn tx (walk_copies_subset htx) c.2.2 (List.getElem?_mem hget)
  have hsum0 : 0 ≤ (utxos.map fun out => out.Value).sum := by
    rw [hvals]
    apply List.sum_nonneg
    intro x hx
    obtain ⟨d, hd, rfl⟩ := List.mem_map.mp hx
    exact hcnn d hd
  have key := takeCandidates_total amount _ ⟨0, [], false⟩ hpos (le_refl _) hcnn
    (by simp only [zero_add]; rw [← hvals]; exact hfit)
  simp only [zero_add] at key
  rw [← hvals] at key
  refine ⟨_, _, findSpendableOutputs_eq hw pubKeyHash amount, ?_, ?_, ?_⟩
  · unfold getBalance
    rw [hu]
    simp only
    rw [goSum_eq, wrapInt_of_range (by omega) hfit]
  · rw [spendTransactions_eq pubKeyHash amount _ ⟨0, [], false⟩ rfl]
    exact key.1
  · rw [spendTransactions_eq pubKeyHash amount _ ⟨0, [], false⟩ rfl]
    exact key.2

/-- C18, amended, at the ledger holding `sendChain`, for the first owner, whose balance is
40, and the amount 30. -/
theorem C18_spendable_iff_balance_witness :
    (ledgerOf demoEnv sendChain).blocks demoEnv 2 = .ok sendChain ∧
    ∃ acc m, (ledgerOf demoEnv sendChain).FindSpendableOutputs demoEnv 2 alice 30 =
        .ok (acc, m) ∧
      getBalance demoEnv 2 (ledgerOf demoEnv sendChain) alice =
        .ok ([(⟨40, alice⟩ : TXOutput)].map fun out => out.Value).sum ∧
      (30 ≤ acc ↔ 30 ≤ ([(⟨40, alice⟩ : TXOutput)].map fun out => out.Value).sum) ∧
      (([(⟨40, alice⟩ : TXOutput)].map fun out => out.Value).sum < 30 →
        acc = ([(⟨40, alice⟩ : TXOutput)].map fun out => out.Value).sum) :=
  ⟨blocks_sendChain,
    C18_spendable_iff_balance demoEnv 2 (ledgerOf demoEnv sendChain) sendChain alice 30
      [⟨40, alice⟩] blocks_sendChain (by decide) (by decide)
      ((findUTXO_eq blocks_sendChain alice).trans (by decide)) (by decide)⟩

end Linkchain
